import Mathlib

/-!
# Verification of the spark-voice realtime voice pipeline (client, `src/public/app.js`)

This file gives a shallow embedding of the browser-side voice pipeline of the
repository and proves/refutes the frozen specification claims about it.

The embedding covers:

* the JS `btoa` / `atob` pair (forgiving-base64, per the WHATWG Infra standard,
  which is what browsers implement) on byte lists;
* the PCM16 codec (`float32ToPCM16Base64`, `base64PCM16ToFloat32` and their
  `openAi*` twins, app.js lines 1261-1288 and 1741-1768), with JS number
  semantics (`Math.min`/`Math.max` NaN propagation, `ToInt16` truncation and
  wrap) made explicit on an inductive of JS double values.  Quotients stored
  into a `Float32Array` are modelled as exact rationals; the sub-ulp rounding
  of `v / 32767` to binary32 is far below every bound stated here and is the
  single deliberate idealization of the model;
* the reconnect handler of `connect()` (app.js lines 609-617);
* the two audio-capture callbacks (app.js lines 1208-1218 and 1706-1726);
* small-step event-loop models of the two OpenAI playback queues
  (`playOpenAiAudioQueue` lines 1771-1801, `playOpenAiAudioQueueTTS` lines
  1807-1875, `stopOpenAiAudioPlayback` lines 1878-1885), where every
  synchronous JS run between two `await` points is one atomic step and the
  environment chooses the interleaving of message handlers, `onended`
  callbacks and `setTimeout` continuations;
* the `user_speaking` branch of `handleOpenAiRealtimeMessage`
  (app.js lines 1504-1513).
-/

namespace SparkVoice

/-! ## Base64: JS `btoa` and forgiving `atob`

`btoa` receives a binary string (here: a list of byte values) and produces
standard base64 with `=` padding.  `atob` implements the forgiving-base64
decode of the WHATWG Infra standard: strip ASCII whitespace; if the length is
a multiple of 4, strip up to two trailing `=`; fail if the remaining length is
1 mod 4 or any remaining character is outside the base64 alphabet; decode
sextets, discarding the spare low bits of a 12- or 18-bit tail. -/

/-- Character of the standard base64 alphabet at index `n` (`n < 64`). -/
def b64Char (n : Nat) : Char :=
  if n < 26 then Char.ofNat (65 + n)
  else if n < 52 then Char.ofNat (97 + (n - 26))
  else if n < 62 then Char.ofNat (48 + (n - 52))
  else if n = 62 then '+'
  else '/'

/-- Index of a character in the base64 alphabet, `none` for foreign characters
(including `=`, which forgiving-base64 only accepts as stripped padding). -/
def b64Index (c : Char) : Option Nat :=
  if 65 ≤ c.toNat ∧ c.toNat ≤ 90 then some (c.toNat - 65)
  else if 97 ≤ c.toNat ∧ c.toNat ≤ 122 then some (26 + (c.toNat - 97))
  else if 48 ≤ c.toNat ∧ c.toNat ≤ 57 then some (52 + (c.toNat - 48))
  else if c = '+' then some 62
  else if c = '/' then some 63
  else none

/-- Byte list to sextet list (without padding): 3 bytes become 4 sextets, a
2-byte tail becomes 3 sextets, a 1-byte tail becomes 2 sextets. -/
def toSextets : List Nat → List Nat
  | b1 :: b2 :: b3 :: rest =>
      (b1 / 4) :: ((b1 % 4) * 16 + b2 / 16) :: ((b2 % 16) * 4 + b3 / 64) ::
        (b3 % 64) :: toSextets rest
  | [b1, b2] => [b1 / 4, (b1 % 4) * 16 + b2 / 16, (b2 % 16) * 4]
  | [b1] => [b1 / 4, (b1 % 4) * 16]
  | [] => []

/-- Sextet list back to bytes, discarding the spare low bits of a 12-bit or
18-bit tail (forgiving-base64 decode).  A length-1 tail cannot occur after
the `% 4 = 1` check and decodes to nothing. -/
def fromSextets : List Nat → List Nat
  | a :: b :: c :: d :: rest =>
      (a * 4 + b / 16) :: ((b % 16) * 16 + c / 4) :: ((c % 4) * 64 + d) ::
        fromSextets rest
  | [a, b, c] => [a * 4 + b / 16, (b % 16) * 16 + c / 4]
  | [a, b] => [a * 4 + b / 16]
  | _ => []

/-- Padding characters `btoa` appends: `==` after a 1-byte tail, `=` after a
2-byte tail. -/
def b64Pad (len : Nat) : List Char :=
  if len % 3 = 1 then ['=', '=']
  else if len % 3 = 2 then ['=']
  else []

/-- JS `btoa` on a byte list. -/
def btoa (bs : List Nat) : String :=
  ⟨(toSextets bs).map b64Char ++ b64Pad bs.length⟩

/-- ASCII whitespace stripped by forgiving-base64. -/
def isB64Ws (c : Char) : Bool :=
  c = ' ' ∨ c = '\t' ∨ c = '\n' ∨ c = '\x0c' ∨ c = '\r'

/-- Strip one or two trailing `=` characters. -/
def stripB64Pad (cs : List Char) : List Char :=
  match cs.reverse with
  | '=' :: '=' :: rest => rest.reverse
  | '=' :: rest => rest.reverse
  | _ => cs

/-- Forgiving-base64 step 2: strip the trailing padding when the length is a
multiple of 4. -/
def stripIfAligned (cs : List Char) : List Char :=
  if cs.length % 4 = 0 then stripB64Pad cs else cs

/-- Forgiving-base64 steps 3-10 on the cleaned character list. -/
def atobChars (cs : List Char) : Option (List Nat) :=
  if cs.length % 4 = 1 then none
  else (cs.mapM b64Index).map fromSextets

/-- JS `atob` (forgiving-base64 decode); `none` models the
`InvalidCharacterError` it throws on malformed input. -/
def atob (s : String) : Option (List Nat) :=
  atobChars (stripIfAligned (s.data.filter (fun c => ¬ isB64Ws c)))

theorem fromSextets_toSextets :
    ∀ bs : List Nat, (∀ b ∈ bs, b < 256) → fromSextets (toSextets bs) = bs
  | [], _ => rfl
  | [b1], h => by
      have h1 := h b1 (by simp)
      simp only [toSextets, fromSextets, List.cons.injEq, and_true]
      omega
  | [b1, b2], h => by
      have h1 := h b1 (by simp)
      have h2 := h b2 (by simp)
      simp only [toSextets, fromSextets, List.cons.injEq, and_true]
      omega
  | b1 :: b2 :: b3 :: rest, h => by
      have h1 := h b1 (by simp)
      have h2 := h b2 (by simp)
      have h3 := h b3 (by simp)
      have ih := fromSextets_toSextets rest (fun b hb => h b (by simp [hb]))
      simp only [toSextets, fromSextets, List.cons.injEq]
      exact ⟨by omega, by omega, by omega, ih⟩

theorem toSextets_lt :
    ∀ bs : List Nat, (∀ b ∈ bs, b < 256) → ∀ s ∈ toSextets bs, s < 64
  | [], _, _, hs => by simp [toSextets] at hs
  | [b1], h, s, hs => by
      have h1 := h b1 (by simp)
      simp only [toSextets, List.mem_cons, List.not_mem_nil, or_false] at hs
      rcases hs with h | h <;> omega
  | [b1, b2], h, s, hs => by
      have h1 := h b1 (by simp)
      have h2 := h b2 (by simp)
      simp only [toSextets, List.mem_cons, List.not_mem_nil, or_false] at hs
      rcases hs with h | h | h <;> omega
  | b1 :: b2 :: b3 :: rest, h, s, hs => by
      have h1 := h b1 (by simp)
      have h2 := h b2 (by simp)
      have h3 := h b3 (by simp)
      simp only [toSextets, List.mem_cons] at hs
      rcases hs with h' | h' | h' | h' | h'
      · omega
      · omega
      · omega
      · omega
      · exact toSextets_lt rest (fun b hb => h b (by simp [hb])) s h'

theorem toSextets_length :
    ∀ bs : List Nat, (toSextets bs).length = bs.length + (bs.length + 2) / 3
  | [] => rfl
  | [_] => by simp [toSextets]
  | [_, _] => by simp [toSextets]
  | _ :: _ :: _ :: rest => by
      simp only [toSextets, List.length_cons]
      have := toSextets_length rest
      omega

theorem b64Index_b64Char : ∀ n < 64, b64Index (b64Char n) = some n := by
  decide

theorem b64Char_ne_eq : ∀ n < 64, b64Char n ≠ '=' := by
  decide

theorem isB64Ws_b64Char : ∀ n < 64, isB64Ws (b64Char n) = false := by
  decide

theorem stripB64Pad_two (l : List Char) :
    stripB64Pad (l ++ ['=', '=']) = l := by
  unfold stripB64Pad
  rw [show (l ++ ['=', '=']).reverse = '=' :: '=' :: l.reverse by simp]
  simp

theorem stripB64Pad_one (l : List Char) (h : ∀ c ∈ l, c ≠ '=') :
    stripB64Pad (l ++ ['=']) = l := by
  have hrev : (l ++ ['=']).reverse = '=' :: l.reverse := by simp
  unfold stripB64Pad
  split
  · next rest heq =>
      exfalso
      rw [hrev] at heq
      have h2 : l.reverse = '=' :: rest := by injection heq
      have : '=' ∈ l := by
        have : '=' ∈ l.reverse := by rw [h2]; simp
        simpa using this
      exact h '=' this rfl
  · next x rest hne heq =>
      rw [hrev] at heq
      have h2 : rest = l.reverse := by
        have := heq
        injection this with _ h3
        exact h3.symm
      rw [h2, List.reverse_reverse]
  · next x hne1 hne2 =>
      exact (hne2 l.reverse hrev).elim

theorem stripB64Pad_none (l : List Char) (h : ∀ c ∈ l, c ≠ '=') :
    stripB64Pad l = l := by
  unfold stripB64Pad
  split
  · next rest heq =>
      exfalso
      have : '=' ∈ l := by
        have : '=' ∈ l.reverse := by rw [heq]; simp
        simpa using this
      exact h '=' this rfl
  · next rest heq =>
      exfalso
      have : '=' ∈ l := by
        have : '=' ∈ l.reverse := by rw [heq]; simp
        simpa using this
      exact h '=' this rfl
  · rfl

theorem mapM_b64Index_map_b64Char :
    ∀ l : List Nat, (∀ s ∈ l, s < 64) → (l.map b64Char).mapM b64Index = some l := by
  intro l
  induction l with
  | nil => intro _; rfl
  | cons a t ih =>
      intro h
      have ha := h a (by simp)
      simp only [List.map_cons, List.mapM_cons, b64Index_b64Char a ha,
        ih (fun s hs => h s (by simp [hs]))]
      rfl

/-- Decoding inverts encoding: JS `atob (btoa bs)` succeeds and returns the
original byte list whenever every element is a byte value. -/
theorem atob_btoa (bs : List Nat) (hbs : ∀ b ∈ bs, b < 256) :
    atob (btoa bs) = some bs := by
  have hsex := toSextets_lt bs hbs
  have hchars : ∀ c ∈ (toSextets bs).map b64Char, c ≠ '=' := by
    intro c hc
    rcases List.mem_map.mp hc with ⟨s, hs, rfl⟩
    exact b64Char_ne_eq s (hsex s hs)
  have hcharsWs : ∀ c ∈ (toSextets bs).map b64Char ++ b64Pad bs.length,
      (¬ isB64Ws c : Bool) = true := by
    intro c hc
    rcases List.mem_append.mp hc with hc | hc
    · rcases List.mem_map.mp hc with ⟨s, hs, rfl⟩
      simp [isB64Ws_b64Char s (hsex s hs)]
    · have : c = '=' := by
        unfold b64Pad at hc
        split at hc <;> simp_all
      subst this
      simp [isB64Ws]
  unfold atob stripIfAligned atobChars btoa
  simp only [String.data]
  rw [List.filter_eq_self.mpr hcharsWs]
  have hlenmap : ((toSextets bs).map b64Char).length = (toSextets bs).length :=
    List.length_map _ _
  have hlen := toSextets_length bs
  have hpadlen : (b64Pad bs.length).length =
      (if bs.length % 3 = 1 then 2 else if bs.length % 3 = 2 then 1 else 0) := by
    unfold b64Pad
    split <;> simp_all
    split <;> simp_all
  have htot : ((toSextets bs).map b64Char ++ b64Pad bs.length).length % 4 = 0 := by
    rw [List.length_append, hlenmap, hlen, hpadlen]
    have h3 : bs.length % 3 = 0 ∨ bs.length % 3 = 1 ∨ bs.length % 3 = 2 := by omega
    rcases h3 with h3 | h3 | h3 <;> simp [h3] <;> omega
  rw [if_pos htot]
  have hstrip : stripB64Pad ((toSextets bs).map b64Char ++ b64Pad bs.length) =
      (toSextets bs).map b64Char := by
    unfold b64Pad
    split
    · exact stripB64Pad_two _
    · split
      · exact stripB64Pad_one _ hchars
      · rw [List.append_nil]
        exact stripB64Pad_none _ hchars
  rw [hstrip]
  have hnot1 : ¬ ((toSextets bs).map b64Char).length % 4 = 1 := by
    rw [hlenmap, hlen]
    omega
  rw [if_neg hnot1, mapM_b64Index_map_b64Char _ hsex]
  simp [fromSextets_toSextets bs hbs]

/-! ## PCM16 codec (app.js lines 1261-1288, duplicated at lines 1741-1768)

The encoder reads samples out of a `Float32Array`; a JS double read from it is
either NaN, an infinity, or a finite value, modelled by `JSNum` with the
finite payload kept as an exact rational.  `Math.max(-1, Math.min(1, s))`
propagates NaN and clamps everything else; `s < 0` is false for NaN;
`pcm16[i] = x` performs the ECMAScript `ToInt16` conversion (NaN and
infinities to 0, otherwise truncate toward zero and wrap modulo 2^16 into
[-2^15, 2^15)). -/

/-- A JS double as read from a `Float32Array`: NaN, an infinity, or a finite
value (kept exact). -/
inductive JSNum where
  | nan
  | inf
  | negInf
  | fin (q : ℚ)
deriving DecidableEq

/-- JS `Math.min` (NaN-propagating). -/
def jsMin : JSNum → JSNum → JSNum
  | JSNum.nan, _ => JSNum.nan
  | _, JSNum.nan => JSNum.nan
  | JSNum.negInf, _ => JSNum.negInf
  | _, JSNum.negInf => JSNum.negInf
  | JSNum.inf, b => b
  | a, JSNum.inf => a
  | JSNum.fin p, JSNum.fin q => JSNum.fin (min p q)

/-- JS `Math.max` (NaN-propagating). -/
def jsMax : JSNum → JSNum → JSNum
  | JSNum.nan, _ => JSNum.nan
  | _, JSNum.nan => JSNum.nan
  | JSNum.inf, _ => JSNum.inf
  | _, JSNum.inf => JSNum.inf
  | JSNum.negInf, b => b
  | a, JSNum.negInf => a
  | JSNum.fin p, JSNum.fin q => JSNum.fin (max p q)

/-- The JS comparison `s < 0` (false for NaN). -/
def jsIsNeg : JSNum → Bool
  | JSNum.nan => false
  | JSNum.inf => false
  | JSNum.negInf => true
  | JSNum.fin q => q < 0

/-- Multiplication by a positive finite constant (the scale factors 0x8000 and
0x7FFF; exact in doubles for binary32 inputs since 24 + 15 ≤ 53 mantissa
bits). -/
def jsMulPos (s : JSNum) (c : ℚ) : JSNum :=
  match s with
  | JSNum.nan => JSNum.nan
  | JSNum.inf => JSNum.inf
  | JSNum.negInf => JSNum.negInf
  | JSNum.fin q => JSNum.fin (q * c)

/-- Truncation toward zero of a rational (the integer step of `ToInt16`). -/
def ratTrunc (q : ℚ) : ℤ :=
  if q < 0 then -(⌊-q⌋) else ⌊q⌋

/-- ECMAScript `ToInt16`, applied by the `Int16Array` element store:
NaN and infinities become 0, finite values truncate toward zero and wrap
modulo 2^16 into the signed range. -/
def toInt16 : JSNum → ℤ
  | JSNum.nan => 0
  | JSNum.inf => 0
  | JSNum.negInf => 0
  | JSNum.fin q => (ratTrunc q + 32768) % 65536 - 32768

/-- The clamp `Math.max(-1, Math.min(1, x))` (app.js line 1264). -/
def jsClamp (x : JSNum) : JSNum :=
  jsMax (JSNum.fin (-1)) (jsMin (JSNum.fin 1) x)

/-- One encoder sample: `const s = Math.max(-1, Math.min(1, x));
pcm16[i] = s < 0 ? s * 0x8000 : s * 0x7FFF;` (app.js lines 1264-1265). -/
def sampleToInt16 (x : JSNum) : ℤ :=
  if jsIsNeg (jsClamp x) then toInt16 (jsMulPos (jsClamp x) 32768)
  else toInt16 (jsMulPos (jsClamp x) 32767)

/-- Little-endian byte serialization of one stored int16 (the `Uint8Array`
view of the `Int16Array` buffer, app.js line 1267). -/
def int16ToBytesLE (v : ℤ) : List Nat :=
  [(v % 65536).toNat % 256, (v % 65536).toNat / 256]

/-- The `Int16Array` view over a byte buffer: consecutive little-endian pairs
reinterpreted as signed 16-bit integers (app.js line 1282).  Only invoked on
even-length buffers; the view construction throws on odd lengths. -/
def bytesToInt16s : List Nat → List ℤ
  | b0 :: b1 :: rest =>
      (if b0 + 256 * b1 < 32768 then ((b0 + 256 * b1 : Nat) : ℤ)
       else ((b0 + 256 * b1 : Nat) : ℤ) - 65536) :: bytesToInt16s rest
  | _ => []

/-- One decoder sample: `float32[i] = pcm16[i] / (pcm16[i] < 0 ? 0x8000 :
0x7FFF);` (app.js line 1285), with the stored binary32 quotient modelled as
the exact rational. -/
def pcm16ToFloat (v : ℤ) : ℚ :=
  if v < 0 then (v : ℚ) / 32768 else (v : ℚ) / 32767

/-- `float32ToPCM16Base64` (app.js lines 1261-1273): clamp/scale/truncate each
sample to an int16, serialize little-endian, base64-encode. -/
def float32ToPCM16Base64 (xs : List JSNum) : String :=
  btoa ((xs.map sampleToInt16).flatMap int16ToBytesLE)

/-- `base64PCM16ToFloat32` (app.js lines 1276-1288): base64-decode, view as
int16 pairs, divide each by the sign-dependent scale.  `none` models the
exceptions thrown by `atob` on malformed base64 and by the `Int16Array`
constructor on an odd-length buffer. -/
def base64PCM16ToFloat32 (s : String) : Option (List ℚ) :=
  match atob s with
  | none => none
  | some bs =>
      if bs.length % 2 = 0 then some ((bytesToInt16s bs).map pcm16ToFloat)
      else none

/-- `openAiFloat32ToBase64PCM16` (app.js lines 1741-1753) is character-for-
character the same function as `float32ToPCM16Base64`. -/
def openAiFloat32ToBase64PCM16 (xs : List JSNum) : String :=
  btoa ((xs.map sampleToInt16).flatMap int16ToBytesLE)

/-- `openAiBase64PCM16ToFloat32` (app.js lines 1756-1768) is character-for-
character the same function as `base64PCM16ToFloat32`. -/
def openAiBase64PCM16ToFloat32 (s : String) : Option (List ℚ) :=
  match atob s with
  | none => none
  | some bs =>
      if bs.length % 2 = 0 then some ((bytesToInt16s bs).map pcm16ToFloat)
      else none

theorem int16ToBytesLE_lt (v : ℤ) : ∀ b ∈ int16ToBytesLE v, b < 256 := by
  intro b hb
  have hmod : (v % 65536).toNat < 65536 := by
    have h1 : 0 ≤ v % 65536 := Int.emod_nonneg v (by norm_num)
    have h2 : v % 65536 < 65536 := Int.emod_lt_of_pos v (by norm_num)
    omega
  simp only [int16ToBytesLE, List.mem_cons, List.not_mem_nil, or_false] at hb
  rcases hb with h | h <;> omega

theorem flatMap_int16ToBytesLE_length (vs : List ℤ) :
    (vs.flatMap int16ToBytesLE).length = 2 * vs.length := by
  induction vs with
  | nil => rfl
  | cons v t ih => simp [List.flatMap_cons, int16ToBytesLE, ih]; omega

theorem bytesToInt16s_flatMap (vs : List ℤ)
    (h : ∀ v ∈ vs, -32768 ≤ v ∧ v ≤ 32767) :
    bytesToInt16s (vs.flatMap int16ToBytesLE) = vs := by
  induction vs with
  | nil => rfl
  | cons v t ih =>
      have hv := h v (by simp)
      have ht := ih (fun x hx => h x (by simp [hx]))
      have h1 : 0 ≤ v % 65536 := Int.emod_nonneg v (by norm_num)
      have h2 : v % 65536 < 65536 := Int.emod_lt_of_pos v (by norm_num)
      have h3 : v % 65536 = if v < 0 then v + 65536 else v := by
        have key : (v + 65536 * 1) % 65536 = v % 65536 :=
          Int.add_mul_emod_self_left v 65536 1
        split
        · next hneg =>
            rw [← key, mul_one]
            exact Int.emod_eq_of_lt (by omega) (by omega)
        · next hpos =>
            exact Int.emod_eq_of_lt (by omega) (by omega)
      have hcast : ((v % 65536).toNat : ℤ) = v % 65536 := Int.toNat_of_nonneg h1
      simp only [List.flatMap_cons, int16ToBytesLE, List.cons_append,
        List.nil_append, bytesToInt16s, List.cons.injEq]
      have hsum : (v % 65536).toNat % 256 + 256 * ((v % 65536).toNat / 256) =
          (v % 65536).toNat := by omega
      constructor
      · rw [hsum]
        by_cases hvn : v < 0
        · rw [if_pos hvn] at h3
          rw [if_neg (by omega)]
          omega
        · rw [if_neg hvn] at h3
          rw [if_pos (by omega)]
          omega
      · simpa using ht

theorem toInt16_range (x : JSNum) : -32768 ≤ toInt16 x ∧ toInt16 x ≤ 32767 := by
  cases x with
  | nan => simp [toInt16]
  | inf => simp [toInt16]
  | negInf => simp [toInt16]
  | fin q =>
      simp only [toInt16]
      have h1 : 0 ≤ (ratTrunc q + 32768) % 65536 :=
        Int.emod_nonneg _ (by norm_num)
      have h2 : (ratTrunc q + 32768) % 65536 < 65536 :=
        Int.emod_lt_of_pos _ (by norm_num)
      omega

theorem sampleToInt16_range (x : JSNum) :
    -32768 ≤ sampleToInt16 x ∧ sampleToInt16 x ≤ 32767 := by
  unfold sampleToInt16
  split <;> exact toInt16_range _

/-- Characterization of the encoder on clamped finite samples: a negative
sample truncates `q * 0x8000` toward zero, a non-negative one truncates
`q * 0x7FFF`. -/
theorem sampleToInt16_fin (q : ℚ) (h1 : -1 ≤ q) (h2 : q ≤ 1) :
    sampleToInt16 (JSNum.fin q) =
      if q < 0 then -(⌊-(q * 32768)⌋) else ⌊q * 32767⌋ := by
  have hclamp : jsClamp (JSNum.fin q) = JSNum.fin q := by
    simp [jsClamp, jsMin, jsMax, min_eq_right h2, max_eq_right h1]
  unfold sampleToInt16
  rw [hclamp]
  by_cases hq : q < 0
  · have hneg : jsIsNeg (JSNum.fin q) = true := by
      simp [jsIsNeg, hq]
    rw [if_pos hneg, if_pos hq]
    simp only [jsMulPos, toInt16]
    have hlt : q * 32768 < 0 := by nlinarith
    rw [ratTrunc, if_pos hlt]
    have hfl : (0 : ℤ) ≤ ⌊-(q * 32768)⌋ := by
      apply Int.floor_nonneg.mpr
      nlinarith
    have hfu : ⌊-(q * 32768)⌋ ≤ 32768 := by
      have : -(q * 32768) ≤ (32768 : ℚ) := by nlinarith
      calc ⌊-(q * 32768)⌋ ≤ ⌊(32768 : ℚ)⌋ := Int.floor_le_floor this
        _ = 32768 := by norm_num
    rw [Int.emod_eq_of_lt (by omega) (by omega)]
    omega
  · have hneg : jsIsNeg (JSNum.fin q) = false := by
      simp [jsIsNeg, hq]
    rw [if_neg (by simp [hneg]), if_neg hq]
    simp only [jsMulPos, toInt16]
    push_neg at hq
    have hge : (0 : ℚ) ≤ q * 32767 := by nlinarith
    rw [ratTrunc, if_neg (by exact not_lt.mpr hge)]
    have hfl : (0 : ℤ) ≤ ⌊q * 32767⌋ := Int.floor_nonneg.mpr hge
    have hfu : ⌊q * 32767⌋ ≤ 32767 := by
      have : q * 32767 ≤ (32767 : ℚ) := by nlinarith
      calc ⌊q * 32767⌋ ≤ ⌊(32767 : ℚ)⌋ := Int.floor_le_floor this
        _ = 32767 := by norm_num
    rw [Int.emod_eq_of_lt (by omega) (by omega)]
    omega

/-- Per-sample round-trip error: strictly below `1/32767`.  (It is *not*
bounded by `1/32768`; see the C2 counterexample.) -/
theorem sample_roundtrip_bound (q : ℚ) (h1 : -1 ≤ q) (h2 : q ≤ 1) :
    |pcm16ToFloat (sampleToInt16 (JSNum.fin q)) - q| < 1 / 32767 := by
  rw [sampleToInt16_fin q h1 h2]
  by_cases hq : q < 0
  · rw [if_pos hq]
    set t : ℤ := -(⌊-(q * 32768)⌋) with ht
    have hfloor1 : (⌊-(q * 32768)⌋ : ℚ) ≤ -(q * 32768) := Int.floor_le _
    have hfloor2 : -(q * 32768) < (⌊-(q * 32768)⌋ : ℚ) + 1 := Int.lt_floor_add_one _
    have htq1 : q * 32768 ≤ (t : ℚ) := by
      rw [ht]; push_cast; linarith
    have htq2 : (t : ℚ) < q * 32768 + 1 := by
      rw [ht]; push_cast; linarith
    by_cases hz : t < 0
    · rw [pcm16ToFloat, if_pos hz]
      rw [abs_sub_lt_iff]
      constructor
      · have : (t : ℚ) / 32768 - q < 1 / 32768 := by
          rw [div_sub' _ _ _ (by norm_num), div_lt_div_iff (by norm_num) (by norm_num)]
          ring_nf
          nlinarith
        linarith [this, show (1 : ℚ) / 32768 < 1 / 32767 by norm_num]
      · have : q ≤ (t : ℚ) / 32768 := by
          rw [le_div_iff (by norm_num)]
          linarith
        linarith [show (0 : ℚ) < 1 / 32767 by norm_num]
    · rw [pcm16ToFloat, if_neg hz]
      push_neg at hz
      have htlt1 : (t : ℚ) < 1 := by nlinarith
      have ht1 : t < 1 := by exact_mod_cast htlt1
      have ht00 : t = 0 := by omega
      rw [ht00]
      simp only [Int.cast_zero, zero_div, zero_sub, abs_neg]
      rw [abs_of_neg hq]
      have hqlow : (-1 : ℚ) < q * 32768 := by
        have : (t : ℚ) = 0 := by rw [ht00]; norm_num
        linarith
      nlinarith
  · rw [if_neg hq]
    push_neg at hq
    set t : ℤ := ⌊q * 32767⌋ with ht
    have hfloor1 : (t : ℚ) ≤ q * 32767 := Int.floor_le _
    have hfloor2 : q * 32767 < (t : ℚ) + 1 := Int.lt_floor_add_one _
    have htnn : 0 ≤ t := Int.floor_nonneg.mpr (by nlinarith)
    rw [pcm16ToFloat, if_neg (by omega)]
    rw [abs_sub_lt_iff]
    constructor
    · have : (t : ℚ) / 32767 ≤ q := by
        rw [div_le_iff (by norm_num)]
        linarith
      linarith [show (0 : ℚ) < 1 / 32767 by norm_num]
    · rw [sub_div' _ _ _ (by norm_num : (32767 : ℚ) ≠ 0)]
      rw [div_lt_div_iff (by norm_num) (by norm_num)]
      nlinarith

theorem sampleToInt16_congr (x y : JSNum) (h : jsClamp x = jsClamp y) :
    sampleToInt16 x = sampleToInt16 y := by
  unfold sampleToInt16
  rw [h]

theorem base64PCM16ToFloat32_of_atob (s : String) (bs : List Nat)
    (h : atob s = some bs) (he : bs.length % 2 = 0) :
    base64PCM16ToFloat32 s = some ((bytesToInt16s bs).map pcm16ToFloat) := by
  unfold base64PCM16ToFloat32
  rw [h]
  exact if_pos he

theorem openAiBase64PCM16ToFloat32_of_atob (s : String) (bs : List Nat)
    (h : atob s = some bs) (he : bs.length % 2 = 0) :
    openAiBase64PCM16ToFloat32 s =
      some ((bytesToInt16s bs).map pcm16ToFloat) := by
  unfold openAiBase64PCM16ToFloat32
  rw [h]
  exact if_pos he

/-- C2 counterexample.  The sample `32769 / 2^24` (an exact binary32 value,
about `0.00195318`) encodes to the int16 value 63 = `trunc(63.99999994)`, which
decodes to `63 / 32767`; the round-trip error exceeds `1 / 32768`.  This
refutes the claimed per-sample bound of `1/32768`; the sharp bound is
`< 1/32767` (proved in the amended theorem). -/
theorem c2_counterexample :
    base64PCM16ToFloat32
        (float32ToPCM16Base64 [JSNum.fin (32769 / 16777216)]) =
      some [63 / 32767] ∧
    ¬ |(63 : ℚ) / 32767 - 32769 / 16777216| ≤ 1 / 32768 := by
  constructor
  · have h1 : sampleToInt16 (JSNum.fin (32769 / 16777216)) = 63 := by
      rw [sampleToInt16_fin _ (by norm_num) (by norm_num)]
      rw [if_neg (by norm_num)]
      norm_num
    have h2 : float32ToPCM16Base64 [JSNum.fin (32769 / 16777216)] = "PwA=" := by
      unfold float32ToPCM16Base64
      rw [show [JSNum.fin (32769 / 16777216 : ℚ)].map sampleToInt16 = [63] by
        simp [h1]]
      decide
    rw [h2, base64PCM16ToFloat32_of_atob "PwA=" [63, 0] (by decide) (by decide)]
    rw [show bytesToInt16s [63, 0] = [63] by decide]
    simp only [List.map_cons, List.map_nil, pcm16ToFloat]
    norm_num
  · have hneg : (63 : ℚ) / 32767 - 32769 / 16777216 < 0 := by norm_num
    rw [abs_of_neg hneg]
    norm_num

/-- C2, amended: decoding the encoding of a finite sample sequence with every
element in [-1, 1] succeeds, preserves the length, and reproduces every sample
within `1/32767` (strictly); the claimed bound `1/32768` fails, by
`c2_counterexample`, but no error reaches `1/32767`. -/
theorem c2_roundtrip_amended (xs : List ℚ) (h : ∀ q ∈ xs, -1 ≤ q ∧ q ≤ 1) :
    ∃ ys, base64PCM16ToFloat32 (float32ToPCM16Base64 (xs.map JSNum.fin)) =
        some ys ∧
      ys.length = xs.length ∧
      List.Forall₂ (fun y x => |y - x| < 1 / 32767) ys xs := by
  have hrange : ∀ v ∈ (xs.map JSNum.fin).map sampleToInt16,
      -32768 ≤ v ∧ v ≤ 32767 := by
    intro v hv
    rcases List.mem_map.mp hv with ⟨x, _, rfl⟩
    exact sampleToInt16_range x
  have hbytes : ∀ b ∈ ((xs.map JSNum.fin).map sampleToInt16).flatMap
      int16ToBytesLE, b < 256 := by
    intro b hb
    rcases List.mem_flatMap.mp hb with ⟨v, _, hbv⟩
    exact int16ToBytesLE_lt v b hbv
  have heven : (((xs.map JSNum.fin).map sampleToInt16).flatMap
      int16ToBytesLE).length % 2 = 0 := by
    rw [flatMap_int16ToBytesLE_length]
    omega
  unfold float32ToPCM16Base64
  rw [base64PCM16ToFloat32_of_atob _ _ (atob_btoa _ hbytes) heven]
  rw [bytesToInt16s_flatMap _ hrange]
  refine ⟨_, rfl, ?_, ?_⟩
  · simp
  · rw [List.map_map, List.map_map]
    rw [List.forall₂_map_left_iff]
    rw [List.forall₂_same]
    intro x hx
    simp only [Function.comp_apply]
    exact sample_roundtrip_bound x (h x hx).1 (h x hx).2

/-- Witness for `c2_roundtrip_amended` at the one-sample input `[1/2]`. -/
theorem c2_roundtrip_witness :
    ∃ ys, base64PCM16ToFloat32
        (float32ToPCM16Base64 ([(1 : ℚ) / 2].map JSNum.fin)) = some ys ∧
      ys.length = [(1 : ℚ) / 2].length ∧
      List.Forall₂ (fun y x => |y - x| < 1 / 32767) ys [(1 : ℚ) / 2] :=
  c2_roundtrip_amended [(1 : ℚ) / 2] (by norm_num)

theorem jsClamp_inf : jsClamp JSNum.inf = JSNum.fin 1 := by
  simp [jsClamp, jsMin, jsMax, max_eq_right (show (-1 : ℚ) ≤ 1 by norm_num)]

theorem jsClamp_negInf : jsClamp JSNum.negInf = JSNum.fin (-1) := by
  simp [jsClamp, jsMin, jsMax]

theorem jsClamp_id (q : ℚ) (h1 : -1 ≤ q) (h2 : q ≤ 1) :
    jsClamp (JSNum.fin q) = JSNum.fin q := by
  simp [jsClamp, jsMin, jsMax, min_eq_right h2, max_eq_right h1]

theorem sampleToInt16_nan : sampleToInt16 JSNum.nan = 0 := rfl

theorem sampleToInt16_zero : sampleToInt16 (JSNum.fin 0) = 0 := by
  rw [sampleToInt16_fin 0 (by norm_num) (by norm_num)]
  norm_num

theorem sampleToInt16_one : sampleToInt16 (JSNum.fin 1) = 32767 := by
  rw [sampleToInt16_fin 1 (by norm_num) le_rfl]
  norm_num

theorem sampleToInt16_negOne : sampleToInt16 (JSNum.fin (-1)) = -32768 := by
  rw [sampleToInt16_fin (-1) le_rfl (by norm_num)]
  norm_num

theorem sampleToInt16_inf : sampleToInt16 JSNum.inf = 32767 := by
  rw [sampleToInt16_congr JSNum.inf (JSNum.fin 1)
    (by rw [jsClamp_inf, jsClamp_id 1 (by norm_num) le_rfl])]
  exact sampleToInt16_one

theorem sampleToInt16_negInf : sampleToInt16 JSNum.negInf = -32768 := by
  rw [sampleToInt16_congr JSNum.negInf (JSNum.fin (-1))
    (by rw [jsClamp_negInf, jsClamp_id (-1) le_rfl (by norm_num)])]
  exact sampleToInt16_negOne

/-- C9 counterexample.  The claim states that every non-finite value (NaN,
+Infinity, -Infinity) is treated as 0; in the code only NaN becomes 0, while
`Math.min(1, Infinity) = 1` clamps the infinities to the interval bounds:
`+Infinity` encodes exactly like `1.0` (int16 value 32767), not like `0`. -/
theorem c9_counterexample :
    float32ToPCM16Base64 [JSNum.inf] ≠ float32ToPCM16Base64 [JSNum.fin 0] ∧
    sampleToInt16 JSNum.inf = 32767 ∧
    sampleToInt16 (JSNum.fin 0) = 0 := by
  refine ⟨?_, sampleToInt16_inf, sampleToInt16_zero⟩
  intro hcontra
  have h1 : float32ToPCM16Base64 [JSNum.inf] = "/38=" := by
    unfold float32ToPCM16Base64
    rw [show [JSNum.inf].map sampleToInt16 = [32767] by simp [sampleToInt16_inf]]
    decide
  have h2 : float32ToPCM16Base64 [JSNum.fin 0] = "AAA=" := by
    unfold float32ToPCM16Base64
    rw [show [JSNum.fin (0 : ℚ)].map sampleToInt16 = [0] by
      simp [sampleToInt16_zero]]
    decide
  rw [h1, h2] at hcontra
  exact absurd hcontra (by decide)

/-- C9, amended: the encoder first clamps every sample to [-1, 1] (values
outside the interval encode like the nearest bound, so 1.5 encodes like 1.0),
NaN is treated as 0 by `ToInt16`, but the infinities are *clamped* — +Infinity
encodes like 1.0 and -Infinity like -1.0, not like 0; the clamped finite value
is scaled by 32768 when negative and 32767 when non-negative and truncated
toward zero; the two bytes of each int16 are serialized low byte first
(little-endian: 1.0 ↦ 0x7FFF ↦ bytes FF 7F). -/
theorem c9_encode_normalization :
    (∀ q : ℚ, 1 ≤ q → sampleToInt16 (JSNum.fin q) = sampleToInt16 (JSNum.fin 1)) ∧
    (∀ q : ℚ, q ≤ -1 →
      sampleToInt16 (JSNum.fin q) = sampleToInt16 (JSNum.fin (-1))) ∧
    float32ToPCM16Base64 [JSNum.fin (3 / 2)] =
      float32ToPCM16Base64 [JSNum.fin 1] ∧
    sampleToInt16 JSNum.nan = 0 ∧
    sampleToInt16 JSNum.inf = sampleToInt16 (JSNum.fin 1) ∧
    sampleToInt16 JSNum.negInf = sampleToInt16 (JSNum.fin (-1)) ∧
    (∀ q : ℚ, -1 ≤ q → q ≤ 1 → sampleToInt16 (JSNum.fin q) =
      if q < 0 then ratTrunc (q * 32768) else ratTrunc (q * 32767)) ∧
    float32ToPCM16Base64 [JSNum.fin 1] = btoa [255, 127] := by
  have hclampHigh : ∀ q : ℚ, 1 ≤ q → jsClamp (JSNum.fin q) = JSNum.fin 1 := by
    intro q hq
    simp [jsClamp, jsMin, jsMax, min_eq_left hq, max_eq_right
      (show (-1 : ℚ) ≤ 1 by norm_num)]
  have hclampLow : ∀ q : ℚ, q ≤ -1 → jsClamp (JSNum.fin q) = JSNum.fin (-1) := by
    intro q hq
    have hq1 : q ≤ 1 := by linarith
    simp [jsClamp, jsMin, jsMax, min_eq_right hq1, max_eq_left hq]
  refine ⟨?_, ?_, ?_, sampleToInt16_nan, ?_, ?_, ?_, ?_⟩
  · intro q hq
    exact sampleToInt16_congr _ _ (by rw [hclampHigh q hq, hclampHigh 1 le_rfl])
  · intro q hq
    exact sampleToInt16_congr _ _ (by rw [hclampLow q hq, hclampLow (-1) le_rfl])
  · have h1 : sampleToInt16 (JSNum.fin (3 / 2)) = sampleToInt16 (JSNum.fin 1) :=
      sampleToInt16_congr _ _ (by rw [hclampHigh (3 / 2) (by norm_num),
        hclampHigh 1 le_rfl])
    unfold float32ToPCM16Base64
    rw [show [JSNum.fin (3 / 2 : ℚ)].map sampleToInt16 =
      [JSNum.fin (1 : ℚ)].map sampleToInt16 by simp [h1]]
  · rw [sampleToInt16_inf, sampleToInt16_one]
  · rw [sampleToInt16_negInf, sampleToInt16_negOne]
  · intro q hq1 hq2
    rw [sampleToInt16_fin q hq1 hq2]
    by_cases hq : q < 0
    · rw [if_pos hq, if_pos hq, ratTrunc,
        if_pos (show q * 32768 < 0 by nlinarith)]
    · push_neg at hq
      rw [if_neg (not_lt.mpr hq), if_neg (not_lt.mpr hq), ratTrunc,
        if_neg (not_lt.mpr (by nlinarith))]
  · unfold float32ToPCM16Base64
    rw [show [JSNum.fin (1 : ℚ)].map sampleToInt16 = [32767] by
      simp [sampleToInt16_one]]
    decide

/-- Witness for `c9_encode_normalization`: its clamping conjuncts applied at
the concrete out-of-range samples 2 and -2. -/
theorem c9_encode_witness :
    sampleToInt16 (JSNum.fin 2) = sampleToInt16 (JSNum.fin 1) ∧
    sampleToInt16 (JSNum.fin (-2)) = sampleToInt16 (JSNum.fin (-1)) :=
  ⟨c9_encode_normalization.1 2 (by norm_num),
   c9_encode_normalization.2.1 (-2) (by norm_num)⟩

theorem b64Index_lt (c : Char) (n : Nat) (h : b64Index c = some n) : n < 64 := by
  unfold b64Index at h
  split at h
  · next hc => injection h with h; omega
  · split at h
    · next hc => injection h with h; omega
    · split at h
      · next hc => injection h with h; omega
      · split at h
        · injection h with h; omega
        · split at h
          · injection h with h; omega
          · exact absurd h (by simp)

theorem mapM_mem {α β : Type} (f : α → Option β) :
    ∀ (l : List α) (r : List β), l.mapM f = some r →
      ∀ y ∈ r, ∃ x ∈ l, f x = some y := by
  intro l
  induction l with
  | nil =>
      intro r h y hy
      simp only [List.mapM_nil, Option.pure_def, Option.some.injEq] at h
      subst h
      simp at hy
  | cons a t ih =>
      intro r h y hy
      simp only [List.mapM_cons, Option.pure_def, Option.bind_eq_bind,
        Option.bind_eq_some] at h
      rcases h with ⟨b, hb, ⟨res, hres, heq⟩⟩
      have heq2 : b :: res = r := by injection heq
      subst heq2
      rcases List.mem_cons.mp hy with hy | hy
      · exact ⟨a, by simp, by rw [hb, hy]⟩
      · rcases ih res hres y hy with ⟨x, hx, hfx⟩
        exact ⟨x, by simp [hx], hfx⟩

theorem fromSextets_lt :
    ∀ l : List Nat, (∀ s ∈ l, s < 64) → ∀ b ∈ fromSextets l, b < 256
  | [], _, b, hb => by simp [fromSextets] at hb
  | [a], _, b, hb => by simp [fromSextets] at hb
  | [a, b'], h, b, hb => by
      have ha := h a (by simp)
      have hb' := h b' (by simp)
      simp only [fromSextets, List.mem_cons, List.not_mem_nil, or_false] at hb
      omega
  | [a, b', c], h, b, hb => by
      have ha := h a (by simp)
      have hb' := h b' (by simp)
      have hc := h c (by simp)
      simp only [fromSextets, List.mem_cons, List.not_mem_nil, or_false] at hb
      rcases hb with hb | hb <;> omega
  | a :: b' :: c :: d :: rest, h, b, hb => by
      have ha := h a (by simp)
      have hb' := h b' (by simp)
      have hc := h c (by simp)
      have hd := h d (by simp)
      simp only [fromSextets, List.mem_cons] at hb
      rcases hb with hb | hb | hb | hb
      · omega
      · omega
      · omega
      · exact fromSextets_lt rest (fun s hs => h s (by simp [hs])) b hb

/-- Every byte produced by `atob` is below 256. -/
theorem atob_bytes_lt (s : String) (bs : List Nat) (h : atob s = some bs) :
    ∀ b ∈ bs, b < 256 := by
  unfold atob atobChars at h
  split at h
  · exact absurd h (by simp)
  · rcases Option.map_eq_some'.mp h with ⟨sexts, hsexts, rfl⟩
    have hlt : ∀ x ∈ sexts, x < 64 := by
      intro x hx
      rcases mapM_mem b64Index _ sexts hsexts x hx with ⟨c, _, hc⟩
      exact b64Index_lt c x hc
    exact fromSextets_lt sexts hlt

theorem bytesToInt16s_range :
    ∀ bs : List Nat, (∀ b ∈ bs, b < 256) →
      ∀ v ∈ bytesToInt16s bs, -32768 ≤ v ∧ v ≤ 32767
  | [], _, v, hv => by simp [bytesToInt16s] at hv
  | [b0], _, v, hv => by simp [bytesToInt16s] at hv
  | b0 :: b1 :: rest, h, v, hv => by
      have h0 := h b0 (by simp)
      have h1 := h b1 (by simp)
      simp only [bytesToInt16s, List.mem_cons] at hv
      rcases hv with hv | hv
      · subst hv
        split
        · next hlt => constructor <;> omega
        · next hge =>
            push_neg at hge
            constructor <;> omega
      · exact bytesToInt16s_range rest (fun b hb => h b (by simp [hb])) v hv

theorem pcm16ToFloat_range (v : ℤ) (h1 : -32768 ≤ v) (h2 : v ≤ 32767) :
    -1 ≤ pcm16ToFloat v ∧ pcm16ToFloat v ≤ 1 := by
  unfold pcm16ToFloat
  split
  · next hneg =>
      have hc1 : (-32768 : ℚ) ≤ (v : ℚ) := by exact_mod_cast h1
      have hc2 : (v : ℚ) < 0 := by exact_mod_cast hneg
      constructor
      · rw [le_div_iff₀ (by norm_num : (0 : ℚ) < 32768)]
        linarith
      · have : (v : ℚ) / 32768 < 0 := div_neg_of_neg_of_pos hc2 (by norm_num)
        linarith
  · next hnn =>
      push_neg at hnn
      have hc1 : (0 : ℚ) ≤ (v : ℚ) := by exact_mod_cast hnn
      have hc2 : (v : ℚ) ≤ 32767 := by exact_mod_cast h2
      constructor
      · have : (0 : ℚ) ≤ (v : ℚ) / 32767 := by positivity
        linarith
      · rw [div_le_one (by norm_num : (0 : ℚ) < 32767)]
        exact hc2

/-- C10: every float emitted by the two PCM decode functions lies in [-1, 1]:
negative int16 values are divided by 32768 and non-negative ones by 32767, so
the extreme int16 values -32768 and 32767 decode to exactly -1 and 1 and no
output sample ever exceeds unit magnitude. -/
theorem c10_decode_range :
    (∀ (s : String) (bs : List Nat), atob s = some bs → bs.length % 2 = 0 →
      ∃ ys, base64PCM16ToFloat32 s = some ys ∧
        openAiBase64PCM16ToFloat32 s = some ys ∧
        ∀ y ∈ ys, -1 ≤ y ∧ y ≤ 1) ∧
    pcm16ToFloat (-32768) = -1 ∧ pcm16ToFloat 32767 = 1 := by
  refine ⟨?_, by norm_num [pcm16ToFloat], by norm_num [pcm16ToFloat]⟩
  intro s bs h he
  refine ⟨(bytesToInt16s bs).map pcm16ToFloat,
    base64PCM16ToFloat32_of_atob s bs h he,
    openAiBase64PCM16ToFloat32_of_atob s bs h he, ?_⟩
  intro y hy
  rcases List.mem_map.mp hy with ⟨v, hv, rfl⟩
  have hrange := bytesToInt16s_range bs (atob_bytes_lt s bs h) v hv
  exact pcm16ToFloat_range v hrange.1 hrange.2

/-- Witness for `c10_decode_range` at the concrete base64 string `"AIA="`,
whose two bytes `00 80` decode to the extreme int16 value -32768 and hence to
the sample -1. -/
theorem c10_decode_witness :
    ∃ ys, base64PCM16ToFloat32 "AIA=" = some ys ∧
      openAiBase64PCM16ToFloat32 "AIA=" = some ys ∧
      ∀ y ∈ ys, -1 ≤ y ∧ y ≤ 1 :=
  c10_decode_range.1 "AIA=" [0, 128] (by decide) (by decide)

/-! ## Variant-B audio chunk reassembly (app.js lines 1600-1609 and 1807-1875)

The `audio_chunk` handler pushes each base64 fragment onto `openAiAudioQueue`;
`playOpenAiAudioQueueTTS` moves all queued fragments into `ttsAudioBuffer`,
joins them with `ttsAudioBuffer.join('')` into a single base64 string and
decodes that joined string once with `atob` (lines 1822-1830).  No fragment is
ever decoded on its own. -/

/-- The reassembly step of `playOpenAiAudioQueueTTS`: join the buffered base64
fragments into one string and decode it as a single unit (app.js lines
1822-1830).  `none` models the `InvalidCharacterError` thrown by `atob` inside
the `try` block. -/
def ttsCombinedBytes (chunks : List String) : Option (List Nat) :=
  atob (String.join chunks)

theorem toSextets_append_of_mod3 :
    ∀ a b : List Nat, a.length % 3 = 0 →
      toSextets (a ++ b) = toSextets a ++ toSextets b
  | [], _, _ => by simp [toSextets]
  | [_], _, h => by simp at h
  | [_, _], _, h => by simp at h
  | a1 :: a2 :: a3 :: rest, b, h => by
      have hrest : rest.length % 3 = 0 := by
        simp only [List.length_cons] at h
        omega
      simp only [List.cons_append, toSextets, List.cons.injEq, true_and]
      exact toSextets_append_of_mod3 rest b hrest

theorem btoa_append_of_mod3 (a b : List Nat)
    (h : a.length % 3 = 0) :
    btoa (a ++ b) = btoa a ++ btoa b := by
  unfold btoa
  have hpadA : b64Pad a.length = [] := by
    unfold b64Pad
    rw [if_neg (by omega), if_neg (by omega)]
  have hpadAB : b64Pad (a ++ b).length = b64Pad b.length := by
    unfold b64Pad
    have : (a ++ b).length % 3 = b.length % 3 := by
      rw [List.length_append]
      omega
    rw [this]
  show String.mk _ = String.mk _ ++ String.mk _
  have happ : ∀ l1 l2 : List Char, String.mk l1 ++ String.mk l2 =
      String.mk (l1 ++ l2) := fun l1 l2 => rfl
  rw [happ]
  rw [hpadA, hpadAB, toSextets_append_of_mod3 a b h]
  simp

/-- C3 counterexample.  With the spec's example fragments `"QQ=="` and
`"Qg=="`, the playback path joins them into the string `"QQ==Qg=="`; the `=`
characters stranded in the middle make the joined string invalid
forgiving-base64, so `atob` throws and *no* bytes are produced — not the
claimed `0x41 0x42`, which is what decoding the fragments individually and
concatenating would give. -/
theorem c3_counterexample :
    ttsCombinedBytes ["QQ==", "Qg=="] = none ∧
    atob "QQ==" = some [65] ∧
    atob "Qg==" = some [66] ∧
    ttsCombinedBytes ["QQ==", "Qg=="] ≠ some [65, 66] := by
  refine ⟨by decide, by decide, by decide, ?_⟩
  intro hcontra
  have : (none : Option (List Nat)) = some [65, 66] := by
    rw [← hcontra]
    decide
  exact absurd this (by simp)

/-- C3, amended: the playback path does concatenate all buffered fragments and
decode them as a single unit (no fragment is decoded independently — the model
`ttsCombinedBytes` only ever applies `atob` to the joined string), and the
joined decode agrees with decoding fragments individually and concatenating
the bytes precisely when every fragment but the last is padding-free, i.e.
encodes a byte sequence whose length is a multiple of 3.  For padded
fragments such as `"QQ==","Qg=="` the joined string is rejected by `atob` and
no audio is produced (`c3_counterexample`). -/
theorem c3_join_amended (a b : List Nat)
    (ha : ∀ x ∈ a, x < 256) (hb : ∀ x ∈ b, x < 256)
    (h3 : a.length % 3 = 0) :
    ttsCombinedBytes [btoa a, btoa b] = some (a ++ b) ∧
    atob (btoa a) = some a ∧
    atob (btoa b) = some b := by
  refine ⟨?_, atob_btoa a ha, atob_btoa b hb⟩
  have hjoin : String.join [btoa a, btoa b] = btoa a ++ btoa b := by
    show (("".append (btoa a)).append (btoa b)) = _
    have : "".append (btoa a) = btoa a := rfl
    rw [this]
    rfl
  unfold ttsCombinedBytes
  rw [hjoin, ← btoa_append_of_mod3 a b h3]
  apply atob_btoa
  intro x hx
  rcases List.mem_append.mp hx with hx | hx
  · exact ha x hx
  · exact hb x hx

/-- Witness for `c3_join_amended` at the 3-byte fragment `[65, 66, 67]`
(`"QUJD"`, padding-free) followed by `[68]` (`"RA=="`). -/
theorem c3_join_witness :
    ttsCombinedBytes [btoa [65, 66, 67], btoa [68]] =
      some ([65, 66, 67] ++ [68]) ∧
    atob (btoa [65, 66, 67]) = some [65, 66, 67] ∧
    atob (btoa [68]) = some [68] :=
  c3_join_amended [65, 66, 67] [68] (by decide) (by decide) (by decide)

/-! ## Reconnect handling (app.js lines 242-244 and 609-617)

`connect()` installs `ws.onclose = (event) => { ...; if (event.code !== 1000)
{ setTimeout(connect, 2000); } }`.  The module-level counter
`realtimeReconnectAttempts` (line 243) and the constant
`MAX_RECONNECT_ATTEMPTS = 5` (line 244) are declared but never read or
written anywhere else in the repository, and `ws.onopen` does not touch them
either. -/

/-- The only connection-retry state the module holds.  The counter exists in
the source (line 243) but no statement ever updates or consults it. -/
structure ReconnectState where
  realtimeReconnectAttempts : Nat
deriving DecidableEq

/-- `MAX_RECONNECT_ATTEMPTS` (app.js line 244); declared and never used. -/
def MAX_RECONNECT_ATTEMPTS : Nat := 5

/-- The `ws.onclose` handler (app.js lines 609-617): on a non-clean close
(code ≠ 1000) it schedules `connect` after a fixed 2000 ms; on a clean close
(code 1000) it schedules nothing.  It returns the (unchanged) module state and
the scheduled delay, if any. -/
def wsOnClose (st : ReconnectState) (code : Nat) : ReconnectState × Option Nat :=
  (st, if code ≠ 1000 then some 2000 else none)

/-- The `ws.onopen` handler (app.js lines 583-598) with respect to the
reconnect state: it does not mention `realtimeReconnectAttempts`. -/
def wsOnOpen (st : ReconnectState) : ReconnectState := st

/-- The delays scheduled across a sequence of close events. -/
def reconnectDelays (st : ReconnectState) : List Nat → List Nat
  | [] => []
  | code :: rest =>
      match wsOnClose st code with
      | (st', some d) => d :: reconnectDelays st' rest
      | (st', none) => reconnectDelays st' rest

/-- C1 counterexample.  Six consecutive unintentional closures (close code
1006) schedule six reconnects, every one after 2000 ms: the second attempt is
scheduled after 2000 ms, not the claimed `baseDelay * 2 = 4000`, and a sixth
reconnect is still scheduled after `MAX_RECONNECT_ATTEMPTS = 5` failures
instead of the claimed terminal "gave up". -/
theorem c1_counterexample :
    reconnectDelays ⟨0⟩ [1006, 1006, 1006, 1006, 1006, 1006] =
      [2000, 2000, 2000, 2000, 2000, 2000] ∧
    reconnectDelays ⟨0⟩ [1006, 1006, 1006, 1006, 1006, 1006] ≠
      [2000, 4000, 6000, 8000, 10000] ∧
    (reconnectDelays ⟨0⟩ (List.replicate (MAX_RECONNECT_ATTEMPTS + 1) 1006)).length =
      MAX_RECONNECT_ATTEMPTS + 1 := by
  refine ⟨by decide, by decide, by decide⟩

/-- C1, amended: on every unintentional closure (close code ≠ 1000) the
handler schedules a reconnect after a fixed 2000 ms delay, independent of the
attempt number and without any cap — the attempt counter
`realtimeReconnectAttempts` and the bound `MAX_RECONNECT_ATTEMPTS` are
declared but never consulted, no "gave up" signal exists, and neither
`onclose` nor `onopen` ever changes the counter; a clean close (code 1000)
schedules no reconnect. -/
theorem c1_reconnect_amended :
    (∀ (st : ReconnectState) (codes : List Nat), (∀ c ∈ codes, c ≠ 1000) →
      reconnectDelays st codes = List.replicate codes.length 2000) ∧
    (∀ st : ReconnectState, (wsOnClose st 1000).2 = none) ∧
    (∀ (st : ReconnectState) (code : Nat), (wsOnClose st code).1 = st) ∧
    (∀ st : ReconnectState, wsOnOpen st = st) := by
  refine ⟨?_, fun st => rfl, fun st code => rfl, fun st => rfl⟩
  intro st codes
  induction codes generalizing st with
  | nil => intro _; rfl
  | cons c rest ih =>
      intro h
      have hc := h c (by simp)
      simp only [reconnectDelays, wsOnClose, if_pos hc, List.length_cons,
        List.replicate_succ, List.cons.injEq, true_and]
      exact ih st (fun x hx => h x (by simp [hx]))

/-- Witness for `c1_reconnect_amended`: two unintentional closures (codes
1006 then 1001) both schedule the fixed 2000 ms delay. -/
theorem c1_reconnect_witness :
    reconnectDelays ⟨0⟩ [1006, 1001] = List.replicate 2 2000 :=
  c1_reconnect_amended.1 ⟨0⟩ [1006, 1001] (by decide)

/-! ## Audio capture callbacks (app.js lines 1208-1218 and 1706-1726)

The ElevenLabs worklet `onmessage` sends every frame whenever the socket is
open.  The OpenAI `onaudioprocess` computes the RMS volume of the frame and
sends it only when `volume > 0.001`; since `volume = sqrt(sumSq / n)` with
both sides non-negative, the gate is equivalent to `sumSq * 10^6 > n`
(and for `n = 0` JS compares `NaN > 0.001`, which is false, matching
`0 > 0`). -/

/-- The OpenAI capture volume gate `Math.sqrt(sum / inputData.length) > 0.001`
(app.js lines 1710-1718), squared into an exact rational comparison. -/
def rmsGate (frame : List ℚ) : Bool :=
  decide ((frame.length : ℚ) < 1000000 * (frame.map (fun x => x * x)).sum)

/-- One firing of the ElevenLabs worklet `onmessage` (app.js lines 1208-1218):
when the socket is open, append the encoded frame to the send log. -/
def elevenLabsOnWorkletMessage (wsOpen : Bool) (sent : List String)
    (frame : List ℚ) : List String :=
  if wsOpen then sent ++ [float32ToPCM16Base64 (frame.map JSNum.fin)] else sent

/-- One firing of the OpenAI `onaudioprocess` (app.js lines 1706-1726): when
the socket is open *and* the RMS gate passes, append the encoded frame. -/
def openAiOnAudioProcess (wsOpen : Bool) (sent : List String)
    (frame : List ℚ) : List String :=
  if wsOpen ∧ rmsGate frame then
    sent ++ [openAiFloat32ToBase64PCM16 (frame.map JSNum.fin)]
  else sent

/-- The messages sent over a whole capture run: the handler fires once per
produced frame, in production order. -/
def runCaptureFrames (handler : Bool → List String → List ℚ → List String)
    (wsOpen : Bool) (frames : List (List ℚ)) : List String :=
  frames.foldl (handler wsOpen) []

/-- C4 counterexample.  Three frames `[f1, f2, f3]` with `f1` pure silence
(all-zero samples) are produced while the socket is open, but the OpenAI
capture path sends only two messages: the silent `f1` fails the
`volume > 0.001` gate and is dropped, contradicting "all frames are sent ...
and none are dropped (including frames of silence)". -/
theorem c4_counterexample :
    runCaptureFrames openAiOnAudioProcess true
        [[0, 0, 0], [1, 1, 1], [1, 1, 1]] =
      [openAiFloat32ToBase64PCM16 ([(1 : ℚ), 1, 1].map JSNum.fin),
       openAiFloat32ToBase64PCM16 ([(1 : ℚ), 1, 1].map JSNum.fin)] ∧
    (runCaptureFrames openAiOnAudioProcess true
        [[0, 0, 0], [1, 1, 1], [1, 1, 1]]).length = 2 := by
  have hgate0 : rmsGate [0, 0, 0] = false := by
    unfold rmsGate
    norm_num
  have hgate1 : rmsGate [1, 1, 1] = true := by
    unfold rmsGate
    norm_num
  constructor
  · unfold runCaptureFrames
    simp only [List.foldl_cons, List.foldl_nil, openAiOnAudioProcess,
      hgate0, hgate1]
    norm_num
  · unfold runCaptureFrames
    simp only [List.foldl_cons, List.foldl_nil, openAiOnAudioProcess,
      hgate0, hgate1]
    norm_num

theorem elevenLabs_foldl (frames : List (List ℚ)) :
    ∀ acc : List String,
      frames.foldl (elevenLabsOnWorkletMessage true) acc =
        acc ++ frames.map (fun f => float32ToPCM16Base64 (f.map JSNum.fin)) := by
  induction frames with
  | nil => intro acc; simp
  | cons f rest ih =>
      intro acc
      simp only [List.foldl_cons, List.map_cons, elevenLabsOnWorkletMessage,
        if_true]
      rw [ih]
      simp

theorem openAi_foldl (frames : List (List ℚ)) :
    ∀ acc : List String,
      frames.foldl (openAiOnAudioProcess true) acc =
        acc ++ (frames.filter rmsGate).map
          (fun f => openAiFloat32ToBase64PCM16 (f.map JSNum.fin)) := by
  induction frames with
  | nil => intro acc; simp
  | cons f rest ih =>
      intro acc
      by_cases hg : rmsGate f
      · simp only [List.foldl_cons, openAiOnAudioProcess, hg,
          List.filter_cons_of_pos hg, List.map_cons, and_self, if_true]
        rw [ih]
        simp
      · have h1 : openAiOnAudioProcess true acc f = acc := by
          unfold openAiOnAudioProcess
          rw [if_neg]
          simp [hg]
        rw [List.foldl_cons, h1, List.filter_cons, if_neg (by simp [hg])]
        exact ih acc

/-- C4, amended: while the socket is open the ElevenLabs capture path sends
every produced frame, encoded, in production order; the OpenAI capture path
preserves production order but sends only the frames passing the
`volume > 0.001` RMS gate — frames of silence are dropped
(`c4_counterexample`); with the socket closed neither path sends anything. -/
theorem c4_capture_amended :
    (∀ frames : List (List ℚ),
      runCaptureFrames elevenLabsOnWorkletMessage true frames =
        frames.map (fun f => float32ToPCM16Base64 (f.map JSNum.fin))) ∧
    (∀ frames : List (List ℚ),
      runCaptureFrames openAiOnAudioProcess true frames =
        (frames.filter rmsGate).map
          (fun f => openAiFloat32ToBase64PCM16 (f.map JSNum.fin))) ∧
    (∀ frames : List (List ℚ),
      runCaptureFrames elevenLabsOnWorkletMessage false frames = []) ∧
    (∀ frames : List (List ℚ),
      runCaptureFrames openAiOnAudioProcess false frames = []) := by
  refine ⟨?_, ?_, ?_, ?_⟩
  · intro frames
    unfold runCaptureFrames
    rw [elevenLabs_foldl frames []]
    simp
  · intro frames
    unfold runCaptureFrames
    rw [openAi_foldl frames []]
    simp
  · intro frames
    unfold runCaptureFrames
    induction frames with
    | nil => rfl
    | cons f rest ih =>
        rw [List.foldl_cons,
          show elevenLabsOnWorkletMessage false [] f = [] by
            simp [elevenLabsOnWorkletMessage]]
        exact ih
  · intro frames
    unfold runCaptureFrames
    induction frames with
    | nil => rfl
    | cons f rest ih =>
        rw [List.foldl_cons,
          show openAiOnAudioProcess false [] f = [] by
            simp [openAiOnAudioProcess]]
        exact ih

/-! ## Playback queue event-loop model (app.js lines 1771-1801, 1878-1885)

`playOpenAiAudioQueue` is an async function; JavaScript runs it atomically
between `await` points.  The model makes each such synchronous stretch one
step of a transition system, with the environment delivering events:

* `enqueue p` — the `audio_delta` handler (lines 1611-1619) pushes `msg.data`
  and calls `playOpenAiAudioQueue()`, which runs synchronously up to its first
  `await` (or returns at the `isPlayingOpenAi || length === 0` guard);
* `endEvent i` — the `onended` callback of the `i`-th in-flight invocation
  resumes its `while` loop, which again runs to the next `await`;
* `sleepDone i` — the 100 ms `setTimeout` of the `i`-th invocation fires; the
  invocation sets `isPlayingOpenAi = false` and returns;
* `flush` — `stopOpenAiAudioPlayback()` (lines 1878-1885) empties the queue,
  clears the flag and closes/nulls `realtimePlaybackContext`.

A payload "reaches the speaker" at `source.start()`, observed as `playStart`.
An item is playable when the `try` block reaches `source.start()`: the base64
must decode (`atob` + even byte length) and `createBuffer` requires a
non-zero sample count. -/

/-- A queued payload can be started iff its base64 data decodes to a non-empty
sample list (otherwise the `try` block throws before `source.start()`). -/
def playableChunk (s : String) : Bool :=
  match openAiBase64PCM16ToFloat32 s with
  | some fs => !fs.isEmpty
  | none => false

/-- The await point at which an in-flight `playOpenAiAudioQueue` invocation is
suspended: waiting for `onended`, sleeping in the trailing 100 ms
`setTimeout`, or already returned. -/
inductive DrainPC where
  | awaitEnd (payload : String)
  | sleeping
  | done
deriving DecidableEq

/-- The module state touched by the PCM playback path: `openAiAudioQueue`,
`isPlayingOpenAi`, whether `realtimePlaybackContext` is non-null, and the
suspension points of the in-flight invocations. -/
structure PCMConfig where
  queue : List String
  isPlaying : Bool
  ctx : Bool
  drains : List DrainPC
deriving DecidableEq

/-- Observable events: a payload reaching `source.start()`. -/
inductive PCMObs where
  | playStart (payload : String)
deriving DecidableEq

/-- Result of running the `while` loop synchronously until the next `await`
or loop exit. -/
structure LoopResult where
  queue : List String
  ctx : Bool
  pc : DrainPC
  obs : List PCMObs
deriving DecidableEq

/-- The `while (openAiAudioQueue.length > 0)` body, run synchronously from the
loop head: pop the front payload, create the context if missing, decode; a
decode/`createBuffer` error is caught and the loop continues with the next
item; a successful decode starts the source and suspends at `await onended`;
an empty queue exits the loop into the 100 ms sleep. -/
def drainLoop : List String → Bool → LoopResult
  | [], ctx => ⟨[], ctx, DrainPC.sleeping, []⟩
  | p :: rest, _ =>
      if playableChunk p then ⟨rest, true, DrainPC.awaitEnd p, [PCMObs.playStart p]⟩
      else drainLoop rest true

/-- A synchronous call of `playOpenAiAudioQueue()` (lines 1771-1773): return
at the guard if already playing or nothing queued; otherwise set
`isPlayingOpenAi = true` and run the loop to its first await. -/
def playCall (c : PCMConfig) : PCMConfig × List PCMObs :=
  if c.isPlaying ∨ c.queue = [] then (c, [])
  else
    let r := drainLoop c.queue c.ctx
    ({ queue := r.queue, isPlaying := true, ctx := r.ctx,
       drains := c.drains ++ [r.pc] }, r.obs)

/-- Environment events for the PCM playback model. -/
inductive PCMEvent where
  | enqueue (payload : String)
  | flush
  | endEvent (i : Nat)
  | sleepDone (i : Nat)
deriving DecidableEq

/-- One event-loop step. -/
def pcmStep (c : PCMConfig) : PCMEvent → PCMConfig × List PCMObs
  | PCMEvent.enqueue p => playCall { c with queue := c.queue ++ [p] }
  | PCMEvent.flush =>
      ({ queue := [], isPlaying := false, ctx := false, drains := c.drains }, [])
  | PCMEvent.endEvent i =>
      match c.drains[i]? with
      | some (DrainPC.awaitEnd _) =>
          let r := drainLoop c.queue c.ctx
          ({ queue := r.queue, isPlaying := c.isPlaying, ctx := r.ctx,
             drains := c.drains.set i r.pc }, r.obs)
      | _ => (c, [])
  | PCMEvent.sleepDone i =>
      match c.drains[i]? with
      | some DrainPC.sleeping =>
          ({ c with isPlaying := false, drains := c.drains.set i DrainPC.done },
           [])
      | _ => (c, [])

/-- Run a whole event script, collecting observations in order. -/
def pcmRun (c : PCMConfig) : List PCMEvent → PCMConfig × List PCMObs
  | [] => (c, [])
  | e :: es =>
      let r := pcmStep c e
      let r' := pcmRun r.1 es
      (r'.1, r.2 ++ r'.2)

/-- The initial module state: empty queue, not playing, null context, no
in-flight invocations. -/
def pcmInit : PCMConfig := ⟨[], false, false, []⟩

/-- The payloads a list of observations says reached the speaker. -/
def playsOf (obs : List PCMObs) : List String :=
  obs.map fun o => match o with | PCMObs.playStart p => p

/-- The payloads enqueued by a script, in order. -/
def enqueuedOf (es : List PCMEvent) : List String :=
  es.filterMap fun e =>
    match e with
    | PCMEvent.enqueue p => some p
    | _ => none

/-- Number of in-flight invocations currently holding a started source
(payloads audibly playing at this instant). -/
def playingCount (c : PCMConfig) : Nat :=
  (c.drains.filter fun d =>
    match d with | DrainPC.awaitEnd _ => true | _ => false).length

theorem playsOf_append (a b : List PCMObs) :
    playsOf (a ++ b) = playsOf a ++ playsOf b := by
  unfold playsOf
  exact List.map_append _ _ _

theorem enqueuedOf_cons (e : PCMEvent) (es : List PCMEvent) :
    enqueuedOf (e :: es) = enqueuedOf [e] ++ enqueuedOf es := by
  unfold enqueuedOf
  cases e <;> simp [List.filterMap_cons]

theorem drainLoop_sublist :
    ∀ (q : List String) (ctx : Bool),
      List.Sublist (playsOf (drainLoop q ctx).obs ++ (drainLoop q ctx).queue) q
  | [], ctx => by simp [drainLoop, playsOf]
  | p :: rest, ctx => by
      unfold drainLoop
      split
      · simp only [playsOf, List.map_cons, List.map_nil]
        exact List.Sublist.refl _
      · exact (drainLoop_sublist rest true).cons p

theorem drainLoop_pc_ne_done :
    ∀ (q : List String) (ctx : Bool), (drainLoop q ctx).pc ≠ DrainPC.done
  | [], ctx => by simp [drainLoop]
  | p :: rest, ctx => by
      unfold drainLoop
      split
      · simp
      · exact drainLoop_pc_ne_done rest true

/-- Equation lemmas for `pcmStep`. -/
theorem pcmStep_enqueue (c : PCMConfig) (p : String) :
    pcmStep c (PCMEvent.enqueue p) =
      playCall { c with queue := c.queue ++ [p] } := rfl

theorem pcmStep_flush (c : PCMConfig) :
    pcmStep c PCMEvent.flush =
      ({ queue := [], isPlaying := false, ctx := false, drains := c.drains },
       []) := rfl

theorem pcmStep_endEvent (c : PCMConfig) (i : Nat) :
    pcmStep c (PCMEvent.endEvent i) =
      match c.drains[i]? with
      | some (DrainPC.awaitEnd _) =>
          let r := drainLoop c.queue c.ctx
          ({ queue := r.queue, isPlaying := c.isPlaying, ctx := r.ctx,
             drains := c.drains.set i r.pc }, r.obs)
      | _ => (c, []) := rfl

theorem pcmStep_sleepDone (c : PCMConfig) (i : Nat) :
    pcmStep c (PCMEvent.sleepDone i) =
      match c.drains[i]? with
      | some DrainPC.sleeping =>
          ({ c with isPlaying := false, drains := c.drains.set i DrainPC.done },
           [])
      | _ => (c, []) := rfl

theorem playCall_sublist (c : PCMConfig) :
    List.Sublist (playsOf (playCall c).2 ++ (playCall c).1.queue) c.queue := by
  unfold playCall
  split
  · simp only [playsOf, List.map_nil, List.nil_append]
    exact List.Sublist.refl _
  · exact drainLoop_sublist c.queue c.ctx

/-- One step only plays payloads that were queued or enqueued by the step. -/
theorem pcmStep_sublist (c : PCMConfig) (e : PCMEvent) :
    List.Sublist (playsOf (pcmStep c e).2 ++ (pcmStep c e).1.queue)
      (c.queue ++ enqueuedOf [e]) := by
  cases e with
  | enqueue p =>
      rw [pcmStep_enqueue]
      have h := playCall_sublist { c with queue := c.queue ++ [p] }
      simpa [enqueuedOf] using h
  | flush =>
      rw [pcmStep_flush]
      simp [playsOf, enqueuedOf]
  | endEvent i =>
      rw [pcmStep_endEvent]
      rcases hd : c.drains[i]? with _ | d
      · simp [playsOf, enqueuedOf]
      · cases d with
        | awaitEnd p =>
            simpa [enqueuedOf] using drainLoop_sublist c.queue c.ctx
        | sleeping => simp [playsOf, enqueuedOf]
        | done => simp [playsOf, enqueuedOf]
  | sleepDone i =>
      rw [pcmStep_sleepDone]
      rcases hd : c.drains[i]? with _ | d
      · simp [playsOf, enqueuedOf]
      · cases d with
        | awaitEnd p => simp [playsOf, enqueuedOf]
        | sleeping => simp [playsOf, enqueuedOf]
        | done => simp [playsOf, enqueuedOf]

/-- Run-level ordering invariant: everything played so far, followed by what
is still queued, is an order-preserving selection of everything enqueued so
far (prepended by the initial queue). -/
theorem pcmRun_sublist :
    ∀ (es : List PCMEvent) (c : PCMConfig),
      List.Sublist (playsOf (pcmRun c es).2 ++ (pcmRun c es).1.queue)
        (c.queue ++ enqueuedOf es)
  | [], c => by simp [pcmRun, playsOf, enqueuedOf]
  | e :: es, c => by
      have hstep := pcmStep_sublist c e
      have hrest := pcmRun_sublist es (pcmStep c e).1
      show List.Sublist (playsOf ((pcmStep c e).2 ++ (pcmRun (pcmStep c e).1 es).2) ++
        (pcmRun (pcmStep c e).1 es).1.queue) _
      rw [playsOf_append, List.append_assoc, enqueuedOf_cons,
        ← List.append_assoc]
      have step1 : List.Sublist
          (playsOf (pcmStep c e).2 ++
            (playsOf (pcmRun (pcmStep c e).1 es).2 ++
              (pcmRun (pcmStep c e).1 es).1.queue))
          (playsOf (pcmStep c e).2 ++
            ((pcmStep c e).1.queue ++ enqueuedOf es)) :=
        hrest.append_left _
      have step2 : playsOf (pcmStep c e).2 ++
          ((pcmStep c e).1.queue ++ enqueuedOf es) =
          (playsOf (pcmStep c e).2 ++ (pcmStep c e).1.queue) ++
            enqueuedOf es := by rw [List.append_assoc]
      have step3 : List.Sublist
          ((playsOf (pcmStep c e).2 ++ (pcmStep c e).1.queue) ++
            enqueuedOf es)
          ((c.queue ++ enqueuedOf [e]) ++ enqueuedOf es) :=
        hstep.append_right _
      have final := (step2 ▸ step1).trans step3
      simpa [List.append_assoc] using final

/-- An invocation that has not yet returned. -/
def isNotDone (d : DrainPC) : Bool := d ≠ DrainPC.done

/-- Number of in-flight invocations that have not yet returned. -/
def nonDoneCount (c : PCMConfig) : Nat :=
  (c.drains.filter isNotDone).length

/-- The single-drain invariant maintained as long as no flush occurs: the
`isPlayingOpenAi` flag counts the in-flight invocations. -/
def NoFlushInv (c : PCMConfig) : Prop :=
  nonDoneCount c = if c.isPlaying then 1 else 0

theorem filter_length_set {α : Type} (p : α → Bool) :
    ∀ (l : List α) (i : Nat) (a b : α), l[i]? = some a →
      ((l.set i b).filter p).length + (if p a then 1 else 0) =
        (l.filter p).length + (if p b then 1 else 0)
  | [], i, a, b, h => by simp at h
  | x :: t, 0, a, b, h => by
      have hx : x = a := by simpa using h
      subst hx
      simp only [List.set_cons_zero, List.filter_cons]
      by_cases hpa : p x
      · by_cases hpb : p b <;> simp [hpa, hpb]
      · by_cases hpb : p b <;> simp [hpa, hpb]
  | x :: t, i + 1, a, b, h => by
      have ht : t[i]? = some a := by simpa using h
      have ih := filter_length_set p t i a b ht
      simp only [List.set_cons_succ, List.filter_cons]
      by_cases hpx : p x <;> simp [hpx] <;> omega

theorem mem_filter_pos {α : Type} (p : α → Bool) :
    ∀ (l : List α) (i : Nat) (a : α), l[i]? = some a → p a = true →
      0 < (l.filter p).length
  | [], i, a, h, _ => by simp at h
  | x :: t, 0, a, h, hp => by
      have hx : x = a := by simpa using h
      subst hx
      simp [List.filter_cons, hp]
  | x :: t, i + 1, a, h, hp => by
      have ht : t[i]? = some a := by simpa using h
      have ih := mem_filter_pos p t i a ht hp
      simp only [List.filter_cons]
      by_cases hpx : p x <;> simp [hpx] <;> omega

theorem filter_imp_length_le {α : Type} (p q : α → Bool)
    (h : ∀ a, p a = true → q a = true) :
    ∀ l : List α, (l.filter p).length ≤ (l.filter q).length
  | [] => by simp
  | x :: t => by
      have ih := filter_imp_length_le p q h t
      simp only [List.filter_cons]
      by_cases hpx : p x
      · rw [if_pos hpx, if_pos (h x hpx)]
        simpa using ih
      · rw [if_neg hpx]
        split
        · simp only [List.length_cons]
          omega
        · exact ih

theorem playCall_NoFlushInv (c : PCMConfig) (h : NoFlushInv c) :
    NoFlushInv (playCall c).1 := by
  unfold playCall
  split
  · exact h
  · next hguard =>
      push_neg at hguard
      have hfalse : c.isPlaying = false := by
        simpa using hguard.1
      unfold NoFlushInv nonDoneCount at h ⊢
      rw [hfalse] at h
      simp only [Bool.false_eq_true, if_false] at h
      have hpc := drainLoop_pc_ne_done c.queue c.ctx
      show (List.filter isNotDone
          (c.drains ++ [(drainLoop c.queue c.ctx).pc])).length = _
      rw [List.filter_append, List.length_append, h]
      simp [isNotDone, hpc]

theorem pcmStep_NoFlushInv (c : PCMConfig) (e : PCMEvent)
    (hne : e ≠ PCMEvent.flush) (h : NoFlushInv c) :
    NoFlushInv (pcmStep c e).1 := by
  cases e with
  | enqueue p =>
      rw [pcmStep_enqueue]
      exact playCall_NoFlushInv _ h
  | flush => exact absurd rfl hne
  | endEvent i =>
      rw [pcmStep_endEvent]
      rcases hd : c.drains[i]? with _ | d
      · exact h
      · cases d with
        | awaitEnd p =>
            have hpc := drainLoop_pc_ne_done c.queue c.ctx
            have hcnt := filter_length_set isNotDone
              c.drains i (DrainPC.awaitEnd p) ((drainLoop c.queue c.ctx).pc) hd
            rw [show isNotDone (DrainPC.awaitEnd p) = true by simp [isNotDone],
              show isNotDone ((drainLoop c.queue c.ctx).pc) = true by
                simp [isNotDone, hpc]] at hcnt
            simp only [if_true] at hcnt
            unfold NoFlushInv nonDoneCount at h ⊢
            show (List.filter isNotDone
              (c.drains.set i (drainLoop c.queue c.ctx).pc)).length =
              if c.isPlaying = true then 1 else 0
            rw [← h]
            omega
        | sleeping => exact h
        | done => exact h
  | sleepDone i =>
      rw [pcmStep_sleepDone]
      rcases hd : c.drains[i]? with _ | d
      · exact h
      · cases d with
        | awaitEnd p => exact h
        | sleeping =>
            have hcnt := filter_length_set isNotDone
              c.drains i DrainPC.sleeping DrainPC.done hd
            have hpos := mem_filter_pos isNotDone
              c.drains i DrainPC.sleeping hd (by decide)
            rw [show isNotDone DrainPC.sleeping = true by decide,
              show isNotDone DrainPC.done = false by decide] at hcnt
            simp only [if_true, Bool.false_eq_true, if_false] at hcnt
            unfold NoFlushInv nonDoneCount at h ⊢
            show (List.filter isNotDone
              (c.drains.set i DrainPC.done)).length =
              if (false : Bool) = true then 1 else 0
            simp only [Bool.false_eq_true, if_false]
            cases hcp : c.isPlaying
            · rw [hcp] at h
              simp only [Bool.false_eq_true, if_false] at h
              omega
            · rw [hcp] at h
              simp only [if_true] at h
              omega
        | done => exact h

theorem pcmRun_NoFlushInv :
    ∀ (es : List PCMEvent) (c : PCMConfig), (∀ e ∈ es, e ≠ PCMEvent.flush) →
      NoFlushInv c → NoFlushInv (pcmRun c es).1
  | [], c, _, h => h
  | e :: es, c, hes, h =>
      pcmRun_NoFlushInv es (pcmStep c e).1
        (fun x hx => hes x (by simp [hx]))
        (pcmStep_NoFlushInv c e (hes e (by simp)) h)

theorem playingCount_le_nonDoneCount (c : PCMConfig) :
    playingCount c ≤ nonDoneCount c := by
  unfold playingCount nonDoneCount
  apply filter_imp_length_le
  intro d hd
  cases d with
  | awaitEnd p => simp [isNotDone]
  | sleeping => simp at hd
  | done => simp at hd

/-- C6 counterexample.  A concrete interleaving in which two payloads are
audibly playing at the same instant.  `"AAA="` decodes to one zero sample, so
it is playable.  The script: a first chunk plays and ends, leaving its
invocation in the 100 ms sleep; a barge-in flush clears `isPlayingOpenAi`
while that invocation is still suspended; a second chunk then starts a second
invocation; the first invocation's sleep now fires and clears
`isPlayingOpenAi` *again*, although the second invocation is still playing;
a third chunk therefore starts a third invocation concurrently with the
second: two sources are started and neither has ended. -/
theorem c6_counterexample :
    playingCount (pcmRun pcmInit
      [PCMEvent.enqueue "AAA=", PCMEvent.endEvent 0, PCMEvent.flush,
       PCMEvent.enqueue "AAA=", PCMEvent.sleepDone 0,
       PCMEvent.enqueue "AAA="]).1 = 2 := by
  decide

/-- C6, amended: playback order always equals arrival order — in every
interleaving the payloads that reach the speaker form an order-preserving
selection of the enqueued payloads — and in every interleaving containing no
flush at most one payload is ever playing at a time; but a flush while a
drain invocation is still in flight can lead to two concurrent playbacks
(`c6_counterexample`), because the invocation's trailing
`isPlayingOpenAi = false` re-opens the guard while another invocation is
still playing. -/
theorem c6_queue_amended :
    (∀ es : List PCMEvent,
      List.Sublist (playsOf (pcmRun pcmInit es).2) (enqueuedOf es)) ∧
    (∀ es : List PCMEvent, (∀ e ∈ es, e ≠ PCMEvent.flush) →
      playingCount (pcmRun pcmInit es).1 ≤ 1) := by
  constructor
  · intro es
    have h := pcmRun_sublist es pcmInit
    simp only [pcmInit, List.nil_append] at h
    exact (List.sublist_append_left _ _).trans h
  · intro es hes
    have hinv : NoFlushInv (pcmRun pcmInit es).1 :=
      pcmRun_NoFlushInv es pcmInit hes
        (show nonDoneCount pcmInit = _ by decide)
    have hle := playingCount_le_nonDoneCount (pcmRun pcmInit es).1
    unfold NoFlushInv at hinv
    split at hinv <;> omega

/-- Witness for `c6_queue_amended`: a flush-free two-chunk script plays at
most one payload at a time. -/
theorem c6_queue_witness :
    playingCount (pcmRun pcmInit
      [PCMEvent.enqueue "AAA=", PCMEvent.enqueue "AAA="]).1 ≤ 1 :=
  c6_queue_amended.2 [PCMEvent.enqueue "AAA=", PCMEvent.enqueue "AAA="]
    (by decide)

/-- The decode error handling of the drain loop, stated at the loop level: an
unplayable item at the front is popped, its error is caught, and the loop
continues synchronously with the rest of the queue. -/
theorem drainLoop_skips_bad (b : String) (rest : List String) (ctx : Bool)
    (hb : playableChunk b = false) :
    drainLoop (b :: rest) ctx = drainLoop rest true := by
  rw [drainLoop.eq_def]
  simp [hb]

theorem drainLoop_cases :
    ∀ (q : List String) (ctx : Bool),
      ((∀ x ∈ q, playableChunk x = false) ∧
        ∃ ctx', drainLoop q ctx = ⟨[], ctx', DrainPC.sleeping, []⟩) ∨
      (∃ bads p rest, q = bads ++ p :: rest ∧
        (∀ b ∈ bads, playableChunk b = false) ∧ playableChunk p = true ∧
        drainLoop q ctx = ⟨rest, true, DrainPC.awaitEnd p,
          [PCMObs.playStart p]⟩)
  | [], ctx => Or.inl ⟨by simp, ctx, rfl⟩
  | p :: rest, ctx => by
      by_cases hp : playableChunk p
      · right
        refine ⟨[], p, rest, by simp, by simp, hp, ?_⟩
        rw [drainLoop.eq_def]
        simp [hp]
      · have hb : playableChunk p = false := by simpa using hp
        rcases drainLoop_cases rest true with ⟨hall, ctx', heq⟩ |
          ⟨bads, p', rest', hsplit, hbads, hp', heq⟩
        · left
          refine ⟨?_, ctx', ?_⟩
          · intro x hx
            rcases List.mem_cons.mp hx with hx | hx
            · subst hx; exact hb
            · exact hall x hx
          · rw [drainLoop_skips_bad p rest ctx hb, heq]
        · right
          refine ⟨p :: bads, p', rest', by simp [hsplit], ?_, hp', ?_⟩
          · intro b hbmem
            rcases List.mem_cons.mp hbmem with hbm | hbm
            · subst hbm; exact hb
            · exact hbads b hbm
          · rw [drainLoop_skips_bad p rest ctx hb, heq]

/-- Equation lemma for `pcmRun` on a cons script. -/
theorem pcmRun_cons (c : PCMConfig) (e : PCMEvent) (es : List PCMEvent) :
    pcmRun c (e :: es) =
      ((pcmRun (pcmStep c e).1 es).1,
       (pcmStep c e).2 ++ (pcmRun (pcmStep c e).1 es).2) := rfl

/-- Composition of runs over concatenated scripts. -/
theorem pcmRun_append :
    ∀ (es1 es2 : List PCMEvent) (c : PCMConfig),
      pcmRun c (es1 ++ es2) =
        ((pcmRun (pcmRun c es1).1 es2).1,
         (pcmRun c es1).2 ++ (pcmRun (pcmRun c es1).1 es2).2)
  | [], es2, c => by simp [pcmRun]
  | e :: es1, es2, c => by
      rw [List.cons_append, pcmRun_cons, pcmRun_append es1 es2 (pcmStep c e).1,
        pcmRun_cons]
      simp [List.append_assoc]

/-- While an invocation is in flight (`isPlayingOpenAi = true`), enqueues pile
up in the queue: every `playOpenAiAudioQueue()` call returns at the guard. -/
theorem pcmRun_enqueues_while_playing :
    ∀ (ps : List String) (c : PCMConfig), c.isPlaying = true →
      pcmRun c (ps.map PCMEvent.enqueue) =
        ({ c with queue := c.queue ++ ps }, [])
  | [], c, h => by simp [pcmRun]
  | p :: ps, c, h => by
      rw [List.map_cons, pcmRun_cons]
      have hstep : pcmStep c (PCMEvent.enqueue p) =
          ({ c with queue := c.queue ++ [p] }, []) := by
        rw [pcmStep_enqueue]
        unfold playCall
        rw [if_pos (Or.inl (by simp [h]))]
      rw [hstep]
      rw [pcmRun_enqueues_while_playing ps _ (by simp [h])]
      simp [List.append_assoc]

/-- Once-sleeping invocations ignore further `onended` deliveries. -/
theorem pcmRun_ends_noop :
    ∀ (k : Nat) (c : PCMConfig), c.drains = [DrainPC.sleeping] →
      pcmRun c (List.replicate k (PCMEvent.endEvent 0)) = (c, [])
  | 0, c, _ => rfl
  | k + 1, c, h => by
      rw [List.replicate_succ, pcmRun_cons]
      have hstep : pcmStep c (PCMEvent.endEvent 0) = (c, []) := by
        rw [pcmStep_endEvent, h]
        rfl
      rw [hstep, pcmRun_ends_noop k c h]
      rfl

/-- Repeatedly delivering `onended` to the single in-flight invocation drains
the whole queue: every playable item is started in order, every unplayable
item is skipped. -/
theorem pcmRun_ends_drain :
    ∀ (k : Nat) (q : List String) (p : String) (ctx : Bool), q.length ≤ k →
      playsOf (pcmRun ⟨q, true, ctx, [DrainPC.awaitEnd p]⟩
        (List.replicate k (PCMEvent.endEvent 0))).2 =
        q.filter playableChunk
  | 0, q, p, ctx, hk => by
      have : q = [] := List.length_eq_zero.mp (by omega)
      subst this
      rfl
  | k + 1, q, p, ctx, hk => by
      rw [List.replicate_succ, pcmRun_cons]
      have hstep : pcmStep ⟨q, true, ctx, [DrainPC.awaitEnd p]⟩
          (PCMEvent.endEvent 0) =
          ({ queue := (drainLoop q ctx).queue, isPlaying := true,
             ctx := (drainLoop q ctx).ctx,
             drains := [(drainLoop q ctx).pc] }, (drainLoop q ctx).obs) := by
        rw [pcmStep_endEvent]
        rfl
      rw [hstep]
      rcases drainLoop_cases q ctx with ⟨hall, ctx', heq⟩ |
        ⟨bads, p', rest, hsplit, hbads, hp', heq⟩
      · rw [heq]
        dsimp only
        have hnoop := pcmRun_ends_noop k
          ⟨[], true, ctx', [DrainPC.sleeping]⟩ rfl
        rw [hnoop]
        have hfilter : q.filter playableChunk = [] :=
          List.filter_eq_nil_iff.mpr (by
            intro x hx
            simp [hall x hx])
        rw [hfilter]
        rfl
      · rw [heq]
        dsimp only
        have hrest : rest.length ≤ k := by
          have : q.length = bads.length + 1 + rest.length := by
            rw [hsplit]
            simp
            omega
          omega
        rw [playsOf_append, pcmRun_ends_drain k rest p' true hrest]
        have hbnil : List.filter playableChunk bads = [] :=
          List.filter_eq_nil_iff.mpr (fun x hx => by simp [hbads x hx])
        rw [hsplit, List.filter_append, hbnil, List.filter_cons_of_pos hp']
        rfl

/-- The script used for C7: a burst of chunks arrives, then the `onended`
events of the playing sources fire one after another. -/
def c7Script (ps : List String) : List PCMEvent :=
  ps.map PCMEvent.enqueue ++ List.replicate ps.length (PCMEvent.endEvent 0)

/-- C7 counterexample.  An undecodable chunk `"!!!!"` arrives on the idle
queue: the drain invocation skips it (the error is caught), finds the queue
empty and suspends in the 100 ms sleep *with `isPlayingOpenAi` still true*.
A decodable chunk `"AAA="` arriving during that window is queued but not
drained (the guard sees `isPlayingOpenAi`), and when the sleep fires the
invocation just clears the flag and returns: the run ends quiescent — no
in-flight invocation, nothing playing — with the decodable chunk stuck in the
queue, never played.  So one undecodable chunk *can* stall the queue. -/
theorem c7_counterexample :
    (pcmRun pcmInit
      [PCMEvent.enqueue "!!!!", PCMEvent.enqueue "AAA=",
       PCMEvent.sleepDone 0]).2 = [] ∧
    (pcmRun pcmInit
      [PCMEvent.enqueue "!!!!", PCMEvent.enqueue "AAA=",
       PCMEvent.sleepDone 0]).1 =
      ⟨["AAA="], false, true, [DrainPC.done]⟩ ∧
    playableChunk "AAA=" = true := by
  refine ⟨by decide, by decide, by decide⟩

/-- C7, amended: the drain loop does catch a decode error, skip the item and
continue synchronously with the next item (first conjunct), and when the
first chunk of a burst is playable the run plays exactly the playable chunks
in order, skipping every undecodable one (second conjunct); but when an
undecodable chunk arrives on an *idle* queue, the drain invocation passes
straight through to its 100 ms sleep and a chunk enqueued during that window
stalls unplayed (`c7_counterexample`), so "the remaining items are still
played" does not hold for every timing. -/
theorem c7_skip_amended :
    (∀ (b : String) (rest : List String) (ctx : Bool),
      playableChunk b = false →
      drainLoop (b :: rest) ctx = drainLoop rest true) ∧
    (∀ (p : String) (ps : List String), playableChunk p = true →
      playsOf (pcmRun pcmInit (c7Script (p :: ps))).2 =
        (p :: ps).filter playableChunk) := by
  constructor
  · exact drainLoop_skips_bad
  · intro p ps hp
    unfold c7Script
    rw [pcmRun_append, List.map_cons, pcmRun_cons]
    have hd : drainLoop [p] false =
        ⟨[], true, DrainPC.awaitEnd p, [PCMObs.playStart p]⟩ := by
      rw [drainLoop.eq_def]
      simp [hp]
    have hstep1 : pcmStep pcmInit (PCMEvent.enqueue p) =
        (⟨[], true, true, [DrainPC.awaitEnd p]⟩, [PCMObs.playStart p]) := by
      rw [pcmStep_enqueue]
      show playCall ⟨[p], false, false, []⟩ = _
      unfold playCall
      rw [if_neg (by simp)]
      rw [hd]
      rfl
    rw [hstep1]
    have hrun1 : pcmRun (⟨[], true, true, [DrainPC.awaitEnd p]⟩ : PCMConfig)
        (ps.map PCMEvent.enqueue) =
        (⟨ps, true, true, [DrainPC.awaitEnd p]⟩, []) := by
      rw [pcmRun_enqueues_while_playing ps _ rfl]
      rfl
    rw [hrun1]
    dsimp only
    have hlen : (p :: ps).length = ps.length + 1 := by simp
    rw [hlen, playsOf_append,
      pcmRun_ends_drain (ps.length + 1) ps p true (by omega),
      List.filter_cons_of_pos hp]
    rfl

/-- Witness for `c7_skip_amended`: a playable chunk followed by an
undecodable one; only the playable chunk reaches the speaker and the bad one
is skipped without stalling the drain. -/
theorem c7_skip_witness :
    playsOf (pcmRun pcmInit (c7Script ("AAA=" :: ["!!!!"]))).2 =
      ("AAA=" :: ["!!!!"]).filter playableChunk :=
  c7_skip_amended.2 "AAA=" ["!!!!"] (by decide)

/-! ## TTS playback model (app.js lines 1600-1609, 1803-1875, 1878-1885)

`playOpenAiAudioQueueTTS` differs from the PCM drain in three ways that
matter for flush: it moves all queued fragments into `ttsAudioBuffer` and
plays the joined string once (no `while` loop over awaits); it creates a
*local* `AudioContext` `ctx` instead of using `realtimePlaybackContext`, so
`stopOpenAiAudioPlayback` — which only closes `realtimePlaybackContext` —
does not stop a TTS playback in flight; and after `onended` (or a caught
error) it sends the `audio_playback_ended` ack to the server when the socket
is open. -/

/-- Suspension point of an in-flight `playOpenAiAudioQueueTTS` invocation. -/
inductive TTSPc where
  | awaitEnd (combined : String)
  | sleeping
  | done
deriving DecidableEq

/-- Module state of the TTS playback path. -/
structure TTSConfig where
  queue : List String
  buffer : List String
  isPlaying : Bool
  wsOpen : Bool
  drains : List TTSPc
deriving DecidableEq

/-- Observables of the TTS path: the joined payload reaching
`source.start()`, and the `audio_playback_ended` ack being sent. -/
inductive TTSObs where
  | playStart (combined : String)
  | ackSent
deriving DecidableEq

/-- A synchronous call of `playOpenAiAudioQueueTTS()` (lines 1807-1854):
return at the `isPlayingOpenAi` guard; otherwise move the queue into
`ttsAudioBuffer`; if anything is buffered, set the flag, join the buffer into
one base64 string, clear the buffer and decode-and-play the joined string; a
decode/`createBuffer` error is caught, closes the local context and sends the
ack immediately. -/
def ttsPlayCall (c : TTSConfig) : TTSConfig × List TTSObs :=
  if c.isPlaying then (c, [])
  else
    let buf := c.buffer ++ c.queue
    if buf = [] then ({ c with queue := [], buffer := [] }, [])
    else
      let combined := String.join buf
      if playableChunk combined then
        ({ queue := [], buffer := [], isPlaying := true, wsOpen := c.wsOpen,
           drains := c.drains ++ [TTSPc.awaitEnd combined] },
         [TTSObs.playStart combined])
      else
        ({ queue := [], buffer := [], isPlaying := true, wsOpen := c.wsOpen,
           drains := c.drains ++ [TTSPc.sleeping] },
         if c.wsOpen then [TTSObs.ackSent] else [])

/-- Environment events for the TTS playback model. -/
inductive TTSEvent where
  | enqueueChunk (payload : String)
  | flush
  | endEvent (i : Nat)
  | sleepDone (i : Nat)
deriving DecidableEq

/-- One event-loop step.  `flush` is `stopOpenAiAudioPlayback()` (lines
1878-1885): it clears `openAiAudioQueue` and the flag and nulls
`realtimePlaybackContext` — but it does not touch `ttsAudioBuffer` and it
does not stop the local-context TTS source, so an in-flight `awaitEnd`
invocation keeps playing. -/
def ttsStep (c : TTSConfig) : TTSEvent → TTSConfig × List TTSObs
  | TTSEvent.enqueueChunk p => ttsPlayCall { c with queue := c.queue ++ [p] }
  | TTSEvent.flush => ({ c with queue := [], isPlaying := false }, [])
  | TTSEvent.endEvent i =>
      match c.drains[i]? with
      | some (TTSPc.awaitEnd _) =>
          ({ c with drains := c.drains.set i TTSPc.sleeping },
           if c.wsOpen then [TTSObs.ackSent] else [])
      | _ => (c, [])
  | TTSEvent.sleepDone i =>
      match c.drains[i]? with
      | some TTSPc.sleeping =>
          ({ c with isPlaying := false, drains := c.drains.set i TTSPc.done },
           [])
      | _ => (c, [])

/-- Run a whole TTS event script. -/
def ttsRun (c : TTSConfig) : List TTSEvent → TTSConfig × List TTSObs
  | [] => (c, [])
  | e :: es =>
      let r := ttsStep c e
      let r' := ttsRun r.1 es
      (r'.1, r.2 ++ r'.2)

/-- Initial TTS state with the realtime socket open. -/
def ttsInit : TTSConfig := ⟨[], [], false, true, []⟩

/-- C5 counterexample.  A TTS chunk starts playing; `stopOpenAiAudioPlayback`
(the flush used on `user_speaking` barge-in) is called while it is draining:
afterwards the invocation is *still* suspended at `await onended` with its
source playing — the current item is not stopped, because the TTS path plays
in a local `AudioContext` that the flush never closes — and when the item
finishes, its `audio_playback_ended` ack still fires, after the flush. -/
theorem c5_counterexample :
    (ttsRun ttsInit
      [TTSEvent.enqueueChunk "AAA=", TTSEvent.flush]).1.drains =
      [TTSPc.awaitEnd "AAA="] ∧
    (ttsRun ttsInit
      [TTSEvent.enqueueChunk "AAA=", TTSEvent.flush]).1.isPlaying = false ∧
    (ttsRun ttsInit
      [TTSEvent.enqueueChunk "AAA=", TTSEvent.flush,
       TTSEvent.endEvent 0]).2 =
      [TTSObs.playStart "AAA=", TTSObs.ackSent] := by
  refine ⟨by decide, by decide, by decide⟩

/-- C5, amended: the flush does clear all pending payloads — in the PCM model
everything that plays after a flush was enqueued after it, so no cleared
payload ever reaches the speaker — and it empties the queue, clears the flag
and closes the playback context; but on the TTS path the flush leaves
`ttsAudioBuffer` and the in-flight invocation untouched: the currently
draining item is not stopped and its playback-ended ack still fires
(`c5_counterexample`). -/
theorem c5_flush_amended :
    (∀ (c : PCMConfig) (es : List PCMEvent),
      List.Sublist (playsOf (pcmRun (pcmStep c PCMEvent.flush).1 es).2)
        (enqueuedOf es)) ∧
    (∀ c : PCMConfig,
      (pcmStep c PCMEvent.flush).1.queue = [] ∧
      (pcmStep c PCMEvent.flush).1.isPlaying = false ∧
      (pcmStep c PCMEvent.flush).1.ctx = false) ∧
    (∀ c : TTSConfig,
      (ttsStep c TTSEvent.flush).1.drains = c.drains ∧
      (ttsStep c TTSEvent.flush).1.buffer = c.buffer) := by
  refine ⟨?_, fun c => ⟨rfl, rfl, rfl⟩, fun c => ⟨rfl, rfl⟩⟩
  intro c es
  have h := pcmRun_sublist es (pcmStep c PCMEvent.flush).1
  rw [pcmStep_flush] at h
  simp only [List.nil_append] at h
  exact (List.sublist_append_left _ _).trans h

/-! ## The `user_speaking` control handler (app.js lines 1504-1513)

The code has no explicit turn-state enum; "the controller is in the
userSpeaking state" is represented by the `speaking` class on the voice bar
(`setVoiceActive(true)`), the status line `"Hearing you..."`
(`updateVoiceStatus`), and the reset per-turn message references.  The
`speaking` state is any state with a non-empty `openAiAudioQueue` or
`isPlayingOpenAi = true`. -/

/-- The module state the `user_speaking` branch reads or writes, plus the
fields of the same subsystem it leaves alone (`ttsAudioBuffer`, the socket).
`voiceActive` is the `speaking` CSS class on the voice bar; `currentUserMsg`
and `currentAssistantMsg` model whether the DOM references are non-null. -/
structure VoiceUI where
  voiceActive : Bool
  voiceStatus : String
  openAiAudioQueue : List String
  isPlayingOpenAi : Bool
  playbackCtx : Bool
  waitingSound : Bool
  currentUserMsg : Bool
  currentAssistantMsg : Bool
  ttsAudioBuffer : List String
deriving DecidableEq

/-- `stopOpenAiAudioPlayback()` (app.js lines 1878-1885) as a state
transformer. -/
def stopOpenAiAudioPlaybackFn (s : VoiceUI) : VoiceUI :=
  { s with
    openAiAudioQueue := []
    isPlayingOpenAi := false
    playbackCtx := false }

/-- `stopWaitingSound()` (app.js lines 1446-1452). -/
def stopWaitingSoundFn (s : VoiceUI) : VoiceUI :=
  { s with waitingSound := false }

/-- The `case 'user_speaking'` branch of `handleOpenAiRealtimeMessage`
(app.js lines 1504-1513), statement by statement: `setVoiceActive(true)`,
`updateVoiceStatus('Hearing you...')`, `stopOpenAiAudioPlayback()`,
`stopWaitingSound()`, `currentUserMsg = null`, `currentAssistantMsg =
null`. -/
def handleUserSpeaking (s : VoiceUI) : VoiceUI :=
  let s1 := { s with voiceActive := true }
  let s2 := { s1 with voiceStatus := "Hearing you..." }
  let s3 := stopOpenAiAudioPlaybackFn s2
  let s4 := stopWaitingSoundFn s3
  { s4 with currentUserMsg := false, currentAssistantMsg := false }

/-- C8: from any state — in particular any `speaking` state (non-empty audio
queue, playback in flight) — a `user_speaking` control drives the controller
to the userSpeaking state (voice bar active, status `"Hearing you..."`) and
performs the playback interruption: the audio queue is emptied and playback
stopped.  A second delivery before anything else changes the state is a
no-op with respect to the resulting state and queue contents:
`handleUserSpeaking` is idempotent. -/
theorem c8_user_speaking_idempotent :
    ∀ s : VoiceUI,
      (handleUserSpeaking s).voiceActive = true ∧
      (handleUserSpeaking s).voiceStatus = "Hearing you..." ∧
      (handleUserSpeaking s).openAiAudioQueue = [] ∧
      (handleUserSpeaking s).isPlayingOpenAi = false ∧
      (handleUserSpeaking s).waitingSound = false ∧
      handleUserSpeaking (handleUserSpeaking s) = handleUserSpeaking s := by
  intro s
  refine ⟨rfl, rfl, rfl, rfl, rfl, rfl⟩

end SparkVoice
